import Mathlib

/-
Verification of the tagalog-stemmer candidate-generation and selection engine.

The Python source (src/tglstemmer) is embedded shallowly:
* strings are `List Char`;
* the `Stem` subclass of `str` (a string carrying affix/transformation
  annotations) is a structure whose string operations copy the annotations,
  mirroring the overridden `__getitem__` / `__add__` / `split` / ... methods;
* Python `IndexError` is modelled by `Except Unit`: `Except.error ()` marks an
  out-of-bounds character access that the source performs unguarded;
* the candidate frontier (a Python `set` of `Stem`, hashed and compared by the
  underlying string) is an insertion-ordered list deduplicated by text.

`helpers/alphabet.py` and the affix resource files are not part of the sources;
the definitions below that correspond to them are marked "Modelled from the
spec:" and follow the specification's wording.
-/

set_option maxRecDepth 4000

namespace Tgl

/-- Strings of the embedded program. -/
abbrev Str := List Char

/-- Modelled from the spec: `helpers/alphabet.py` (the `VOWELS` constant) is not
under `src/`; per spec section 3 the vowel set of the Tagalog orthography. -/
def VOWELS : Str := ['a', 'e', 'i', 'o', 'u']

/-- Modelled from the spec: `helpers/alphabet.py` (the `CONSONANTS` constant) is
not under `src/`; per spec section 3 the consonants of the Tagalog orthography
including the letters used in loanwords. -/
def CONSONANTS : Str := ['b', 'c', 'd', 'f', 'g', 'h', 'j', 'k', 'l', 'm', 'n', 'p', 'q', 'r', 's', 't', 'v', 'w', 'x', 'y', 'z']

/-- ASCII lowercasing, as `str.lower` acts on the tokens considered here. -/
def lowerChar (c : Char) : Char :=
  if 'A' ≤ c ∧ c ≤ 'Z' then Char.ofNat (c.toNat + 32) else c

/-- One character of `is_vowel`: membership in `VOWELS` after lowercasing. -/
def isVowelC (c : Char) : Bool := VOWELS.contains (lowerChar c)

/-- One character of `is_consonant`. -/
def isConsC (c : Char) : Bool := CONSONANTS.contains (lowerChar c)

/-- `validation.is_vowel`: every character of the (joined) substring is a
vowel; vacuously true on the empty string. -/
def is_vowel (s : Str) : Bool := s.all isVowelC

/-- `validation.is_consonant`. -/
def is_consonant (s : Str) : Bool := s.all isConsC

/-- The apostrophe character (used by the contraction suffixes). -/
def apoC : Char := Char.ofNat 39

/-- `stem.Stem`: a string plus the affix/transformation annotations.  In the
source the class subclasses `str`; equality and hashing compare only the
string, which the embedding reflects by always comparing `text` fields. -/
structure Stem where
  text : Str
  pre : Option Str := none
  inf : Option Str := none
  suf : Option Str := none
  rep : Option Str := none
  dup : Option Str := none
  contraction : Option Str := none
  phoneme_change : Option Str := none
  assimilation : Option Str := none
  vowel_loss : Option Str := none
  metathesis : Bool := false
deriving DecidableEq, Repr

/-- `Stem(s)`: a fresh candidate with all annotations absent. -/
def mkStem (s : Str) : Stem := { text := s }

/-- `token[n:]` — the overridden slicing keeps all annotations. -/
def Stem.dropN (t : Stem) (n : Nat) : Stem := { t with text := t.text.drop n }

/-- `token[:n]` — slicing keeps all annotations. -/
def Stem.takeN (t : Stem) (n : Nat) : Stem := { t with text := t.text.take n }

/-- `"c" + token` — the overridden `__radd__` keeps the annotations of the
`Stem` operand. -/
def consC (c : Char) (t : Stem) : Stem := { t with text := c :: t.text }

/-- Truthiness of an optional-string attribute (`None` and `""` are falsy). -/
def truthyO : Option Str → Bool
  | none => false
  | some s => !s.isEmpty

/-- Length of an annotation, `len(x or "")`. -/
def lenO : Option Str → Nat
  | none => 0
  | some s => s.length

/-- `Stem.count_affixes`. -/
def Stem.count_affixes (t : Stem) : Nat := lenO t.pre + lenO t.inf + lenO t.suf

/-- `Stem.count_reduplication`. -/
def Stem.count_reduplication (t : Stem) : Nat := lenO t.rep + lenO t.dup

/-- `Stem.count_transformations`. -/
def Stem.count_transformations (t : Stem) : Nat :=
  (if truthyO t.phoneme_change then 1 else 0)
  + (if truthyO t.assimilation then 1 else 0)
  + (if truthyO t.vowel_loss then 1 else 0)
  + (if t.metathesis then 1 else 0)

/-- The sorting key of `sort_candidates`: `count_affixes + count_reduplication`,
i.e. the total string length of `pre`, `inf`, `suf`, `rep` and `dup`. -/
def score (t : Stem) : Nat := t.count_affixes + t.count_reduplication

/-- A candidate carries at least one (truthy) annotation. -/
def annotated (t : Stem) : Bool :=
  truthyO t.pre || truthyO t.inf || truthyO t.suf || truthyO t.rep
  || truthyO t.dup || truthyO t.contraction || truthyO t.phoneme_change
  || truthyO t.assimilation || truthyO t.vowel_loss || t.metathesis

/-- `validation.is_valid`: returns the token when the lexicon is `None` or
empty (both falsy) or when the token is a member; Python `False` is `none`. -/
def is_valid (t : Stem) (vw : Option (List Str)) : Option Stem :=
  match vw with
  | none => some t
  | some ws => if ws.isEmpty then some t else if ws.contains t.text then some t else none

/-- Truthiness of an `is_valid` result (the empty string is falsy). -/
def truthyStem : Option Stem → Bool
  | none => false
  | some t => !t.text.isEmpty

/-- `validation.is_acceptable` on the underlying string.  The source indexes
`token[0]` unguarded; every call site of the pipeline reaches it with a
non-empty string (shorter-lived accesses fail earlier), so the empty case is
mapped to `false`. -/
def is_acceptable (s : Str) : Bool :=
  match s with
  | [] => false
  | c :: _ =>
    if isVowelC c then decide (s.length = 2) || (decide (3 ≤ s.length) && s.any isConsC)
    else if isConsC c then decide (s.length = 3) || (decide (4 ≤ s.length) && s.any isVowelC)
    else false

/-- Python negative-index normalisation for list assignment. -/
def idxNorm (n : Nat) (i : Int) : Nat := if i < 0 then (i + n).toNat else i.toNat

/-- `manipulation.replace_letter`: replace the character at (possibly negative)
index `i`; annotations are preserved.  All call sites pass in-bounds indices. -/
def replace_letter (t : Stem) (i : Int) (c : Char) : Stem :=
  { t with text := t.text.set (idxNorm t.text.length i) c }

/-- `manipulation.swap_letters`: swap the characters at (possibly negative)
indices; annotations are preserved.  All call sites pass in-bounds indices. -/
def swap_letters (t : Stem) (i j : Int) : Stem :=
  let a := idxNorm t.text.length i
  let b := idxNorm t.text.length j
  match t.text.get? a, t.text.get? b with
  | some ca, some cb => { t with text := (t.text.set a cb).set b ca }
  | _, _ => t

/-- `token.split("-")` on the underlying string. -/
def splitDash : Str → List Str
  | [] => [[]]
  | c :: cs =>
    if c = '-' then [] :: splitDash cs
    else
      match splitDash cs with
      | [] => [[c]]
      | h :: r => (c :: h) :: r

/-- `is_vowel(token[i])` under a bounds guard. -/
def vowelAt (s : Str) (i : Nat) : Bool :=
  match s.get? i with
  | some c => isVowelC c
  | none => false

/-- `is_consonant(token[i])` under a bounds guard. -/
def consAt (s : Str) (i : Nat) : Bool :=
  match s.get? i with
  | some c => isConsC c
  | none => false

/-- `token[a:b] == token[c:d]` (Python slices never raise). -/
def sliceEq (s : Str) (a b c d : Nat) : Bool :=
  ((s.drop a).take (b - a)) == ((s.drop c).take (d - c))

/-- The prefix-stripping step of `stem_pre`: `stem = token[len(prefix):]`,
`stem.pre = prefix`, and the leading hyphen is dropped when present. -/
def pre_strip (p : Str) (t : Stem) : Stem :=
  let stem0 : Stem := { t.dropN p.length with pre := some p }
  if stem0.text.head? == some '-' then stem0.dropN 1 else stem0

/-- The d/r phoneme-change test of `stem_pre`:
`stem[0] == "r" and is_vowel(prefix[-1], stem[1])`, with `Except.error ()` for
the `IndexError` of `prefix[-1]` or `stem[1]`. -/
def pre_dr (p : Str) (stem : Stem) (c0 : Char) : Except Unit (List Stem) :=
  if c0 = 'r' then
    match p.getLast?, stem.text.get? 1 with
    | some pl, some s1 =>
      if isVowelC pl && isVowelC s1 then
        Except.ok [{ consC 'd' (stem.dropN 1) with phoneme_change := some "pre: d/r".toList }]
      else Except.ok []
    | _, _ => Except.error ()
  else Except.ok []

/-- The assimilation block of `stem_pre` (guarded by
`is_acceptable(stem) and is_vowel(stem[0])`). -/
def pre_asml (p : Str) (stem : Stem) (c0 : Char) : List Stem :=
        if is_acceptable stem.text && isVowelC c0 then
          if "ng".toList.isSuffixOf p then
            let k1 := { consC 'k' stem with assimilation := some "k/null".toList }
            let ngrep : List Stem :=
              if decide (3 < stem.text.length)
                  && ((stem.text.drop 1).take 2 == "ng".toList)
                  && (stem.text.get? 0 == stem.text.get? 3)
                  && isVowelC c0 then
                let r := { stem.dropN 3 with rep := some (stem.text.take 3) }
                if is_acceptable r.text then
                  [r, { consC 'k' r with assimilation := some "k/null".toList }]
                else [r]
              else []
            k1 :: ngrep
          else if "m".toList.isSuffixOf p then
            let bp := [{ consC 'b' stem with assimilation := some "b/p: b".toList },
                       { consC 'p' stem with assimilation := some "b/p: p".toList }]
            let mrep : List Stem :=
              if decide (2 < stem.text.length)
                  && (stem.text.get? 1 == some 'm')
                  && (stem.text.get? 0 == stem.text.get? 2)
                  && isVowelC c0 then
                [{ consC 'b' (stem.dropN 2) with assimilation := some "b/p: b".toList },
                 { consC 'p' (stem.dropN 2) with assimilation := some "b/p: p".toList }]
              else []
            bp ++ mrep
          else if "n".toList.isSuffixOf p then
            let dst := [{ consC 'd' stem with assimilation := some "d/s/t: d".toList },
                        { consC 's' stem with assimilation := some "d/s/t: s".toList },
                        { consC 't' stem with assimilation := some "d/s/t: t".toList }]
            let nrep : List Stem :=
              if decide (2 < stem.text.length)
                  && "n".toList.isSuffixOf p
                  && (stem.text.get? 1 == some 'n')
                  && (stem.text.get? 0 == stem.text.get? 2)
                  && isVowelC c0 then
                [{ consC 'd' (stem.dropN 2) with assimilation := some "d/s/t: d".toList },
                 { consC 's' (stem.dropN 2) with assimilation := some "d/s/t: s".toList },
                 { consC 't' (stem.dropN 2) with assimilation := some "d/s/t: t".toList }]
              else []
            dst ++ nrep
          else []
        else []

/-- The body of `stem_pre` for one candidate and one prefix.  `Except.error ()`
models the `IndexError` raised by the unguarded access `stem[0]` after the
hyphen drop, and by the d/r test of `pre_dr`. -/
def pre_one (p : Str) (t : Stem) : Except Unit (List Stem) :=
  if p.isPrefixOf t.text && decide (p.length < t.text.length) then
    match (pre_strip p t).text.head? with
    | none => Except.error ()
    | some c0 =>
      match pre_dr p (pre_strip p t) c0 with
      | Except.error e => Except.error e
      | Except.ok dr => Except.ok ([pre_strip p t] ++ dr ++ pre_asml p (pre_strip p t) c0)
  else Except.ok []

/-- Iterate an exception-throwing rule body over a list, collecting all
emissions; any exception aborts the whole traversal, as a raised `IndexError`
aborts the whole rule in Python. -/
def exceptFlat (f : α → Except Unit (List Stem)) : List α → Except Unit (List Stem)
  | [] => Except.ok []
  | a :: as =>
    match f a, exceptFlat f as with
    | Except.ok l, Except.ok r => Except.ok (l ++ r)
    | Except.error e, _ => Except.error e
    | _, Except.error e => Except.error e

/-- `stemmer.stem_pre`: every candidate against every prefix. -/
def stem_pre (pfxs : List Str) (tokens : List Stem) : Except Unit (List Stem) :=
  exceptFlat (fun t => exceptFlat (fun p => pre_one p t) pfxs) tokens

/-- The first shape test of `stem_inf`, `token.startswith(infix) and
is_vowel(token[2])`; `Except.error ()` models the `IndexError` from `token[2]`
when `startswith` succeeds on a too-short token (possible only for infixes
shorter than 2 characters). -/
def inf_shape1 (x : Str) (s : Str) : Except Unit Bool :=
  if x.isPrefixOf s then
    match s.get? 2 with
    | none => Except.error ()
    | some c2 => Except.ok (isVowelC c2)
  else Except.ok false

/-- The elif chain of `stem_inf` after the first shape: C-infix-V, CC-infix-V,
CCC-infix-V. -/
def inf_rest (x : Str) (t : Stem) : Option Stem :=
  let s := t.text
  if decide (3 < s.length) && ((s.drop 1).take 2 == x) && consAt s 0 && vowelAt s 3 then
    some { t with text := s.take 1 ++ s.drop 3 }
  else if decide (4 < s.length) && ((s.drop 2).take 2 == x) && is_consonant (s.take 2) && vowelAt s 4 then
    some { t with text := s.take 2 ++ s.drop 4 }
  else if decide (5 < s.length) && ((s.drop 3).take 2 == x) && is_consonant (s.take 3) && vowelAt s 5 then
    some { t with text := s.take 3 ++ s.drop 5 }
  else none

/-- The body of `stem_inf` for one candidate and one infix. -/
def inf_one (x : Str) (t : Stem) : Except Unit (List Stem) :=
  if decide (x.length + 1 < t.text.length) then
    match inf_shape1 x t.text with
    | Except.error e => Except.error e
    | Except.ok b1 =>
      match (if b1 then some (t.dropN 2) else inf_rest x t) with
      | some st => Except.ok [{ st with inf := some x }]
      | none => Except.ok []
  else Except.ok []

/-- `stemmer.stem_inf`. -/
def stem_inf (ifxs : List Str) (tokens : List Stem) : Except Unit (List Stem) :=
  exceptFlat (fun t => exceptFlat (fun x => inf_one x t) ifxs) tokens

/-- The body of `stem_vowel_loss` for one candidate: probe appending each vowel
and inserting it before the last character; only lexicon-valid (truthy) forms
are emitted. -/
def vl_one (vw : Option (List Str)) (t : Stem) : List Stem :=
  VOWELS.flatMap (fun v =>
    (if decide (1 < t.text.length) then
        let st : Stem := { t with text := t.text ++ [v] }
        if truthyStem (is_valid st vw) then [{ st with vowel_loss := some [v] }] else []
      else [])
    ++
    (if decide (2 < t.text.length) then
        let st : Stem := { t with text := t.text.dropLast ++ [v] ++ t.text.drop (t.text.length - 1) }
        if truthyStem (is_valid st vw) then [{ st with vowel_loss := some [v] }] else []
      else []))

/-- `stemmer.stem_vowel_loss`. -/
def stem_vowel_loss (tokens : List Stem) (vw : Option (List Str)) : List Stem :=
  tokens.flatMap (vl_one vw)

/-- The derivations `stem_suf` performs after a suffix or contraction has been
stripped and recorded on `stem`: d/r, o/u, e/i phoneme changes, then vowel loss
and metathesis on consonant-final acceptable stems. -/
def suf_emit (stem : Stem) (f : Str) (vw : Option (List Str)) : List Stem :=
  let dr : List Stem :=
    if (f == "in".toList || f == "an".toList) && (stem.text.getLast? == some 'r') then
      [{ replace_letter stem (-1) 'd' with phoneme_change := some "suf: d/r".toList }]
    else []
  let ou : List Stem :=
    if decide (1 < stem.text.length) && (stem.text.getLast? == some 'u') then
      [{ replace_letter stem (-1) 'o' with phoneme_change := some "suf: o/u".toList }]
    else if decide (2 < stem.text.length) && (stem.text.get? (stem.text.length - 2) == some 'u') then
      [{ replace_letter stem (-2) 'o' with phoneme_change := some "suf: o/u".toList }]
    else []
  let ei : List Stem :=
    if decide (1 < stem.text.length) && (stem.text.getLast? == some 'i') then
      [{ replace_letter stem (-1) 'e' with phoneme_change := some "suf: e/i".toList }]
    else if decide (2 < stem.text.length) && (stem.text.get? (stem.text.length - 2) == some 'i') then
      [{ replace_letter stem (-2) 'e' with phoneme_change := some "suf: e/i".toList }]
    else []
  let vlmt : List Stem :=
    if decide (2 < stem.text.length) && is_acceptable stem.text
        && is_consonant (stem.text.drop (stem.text.length - 2)) then
      let vls := stem_vowel_loss [stem] vw
      let mtts := { swap_letters stem (-1) (-2) with metathesis := true }
      let m2 : List Stem :=
        if truthyStem (is_valid mtts vw) then [mtts]
        else stem_vowel_loss [mtts] vw
      vls ++ m2
    else []
  [stem] ++ dr ++ ou ++ ei ++ vlmt

/-- The body of `stem_suf` for one candidate and one suffix: the contraction
suffixes `ng`, `g`, `'t`, `'y` record `contraction` (with the `g` and `'t`/`'y`
guards skipping the suffix entirely via `continue`), other suffixes record
`suf`; then the further derivations of `suf_emit` are unioned in. -/
def suf_one (f : Str) (vw : Option (List Str)) (t : Stem) : List Stem :=
  if f.isSuffixOf t.text && decide (f.length < t.text.length) then
    let stem0 := t.takeN (t.text.length - f.length)
    if f == "ng".toList || f == ['g'] || f == [apoC, 't'] || f == [apoC, 'y'] then
      if f == ['g'] && !(stem0.text.getLast? == some 'n') then []
      else if (f == [apoC, 't'] || f == [apoC, 'y'])
              && !((stem0.text.getLast?).rec false isVowelC) then []
      else suf_emit { stem0 with contraction := some f } f vw
    else suf_emit { stem0 with suf := some f } f vw
  else []

/-- `stemmer.stem_suf`. -/
def stem_suf (sfxs : List Str) (vw : Option (List Str)) (tokens : List Stem) : List Stem :=
  tokens.flatMap (fun t => sfxs.flatMap (fun f => suf_one f vw t))

/-- `stem_rep` pattern V-V: condition. -/
def cVV (s : Str) : Bool := decide (2 < s.length) && (s.get? 0 == s.get? 1) && is_vowel (s.take 2)

/-- `stem_rep` pattern V-V: result. -/
def rVV (t : Stem) : Stem := { t.dropN 1 with rep := some (t.text.take 1) }

/-- `stem_rep` pattern CV-CV: condition. -/
def cCVCV (s : Str) : Bool := decide (4 < s.length) && sliceEq s 0 2 2 4 && consAt s 0

/-- `stem_rep` pattern CV-CV: result. -/
def rCVCV (t : Stem) : Stem := { t.dropN 2 with rep := some (t.text.take 2) }

/-- `stem_rep` pattern CV-CCV (inside the `len > 5` block): condition. -/
def cCVCCV (s : Str) : Bool :=
  (s.get? 0 == s.get? 2) && (s.get? 1 == s.get? 4) && consAt s 0 && vowelAt s 1

/-- `stem_rep` pattern CV-CCV: result. -/
def rCVCCV (t : Stem) : Stem := { t.dropN 2 with rep := some (t.text.take 2) }

/-- `stem_rep` pattern CC-CCV: condition. -/
def cCCCCV (s : Str) : Bool := sliceEq s 0 2 2 4 && is_consonant (s.take 2) && vowelAt s 4

/-- `stem_rep` pattern CC-CCV: result. -/
def rCCCCV (t : Stem) : Stem := { t.dropN 2 with rep := some (t.text.take 2) }

/-- `stem_rep` pattern CCV-CCV: condition. -/
def cCCVCCV (s : Str) : Bool := sliceEq s 0 2 3 5 && is_consonant (s.take 2) && vowelAt s 2

/-- `stem_rep` pattern CCV-CCV: result. -/
def rCCVCCV (t : Stem) : Stem := { t.dropN 3 with rep := some (t.text.take 3) }

/-- `stem_rep` pattern CV-CCCV (inside the `len > 6` block): condition. -/
def cQ1 (s : Str) : Bool :=
  (s.get? 0 == s.get? 2) && (s.get? 1 == s.get? 5) && consAt s 0 && vowelAt s 1

/-- `stem_rep` pattern CV-CCCV: result. -/
def rQ1 (t : Stem) : Stem := { t.dropN 2 with rep := some (t.text.take 2) }

/-- `stem_rep` pattern CC-CCCV: condition. -/
def cQ2 (s : Str) : Bool := sliceEq s 0 2 2 4 && is_consonant (s.take 2) && vowelAt s 5

/-- `stem_rep` pattern CC-CCCV: result. -/
def rQ2 (t : Stem) : Stem := { t.dropN 2 with rep := some (t.text.take 2) }

/-- `stem_rep` pattern CCV-CCCV: condition. -/
def cQ3 (s : Str) : Bool :=
  sliceEq s 0 2 3 5 && (s.get? 2 == s.get? 6) && is_consonant (s.take 2) && vowelAt s 6

/-- `stem_rep` pattern CCV-CCCV: result. -/
def rQ3 (t : Stem) : Stem := { t.dropN 3 with rep := some (t.text.take 3) }

/-- `stem_rep` pattern CCC-CCCV: condition. -/
def cQ4 (s : Str) : Bool := sliceEq s 0 3 3 6 && is_consonant (s.take 3) && vowelAt s 6

/-- `stem_rep` pattern CCC-CCCV: result. -/
def rQ4 (t : Stem) : Stem := { t.dropN 3 with rep := some (t.text.take 3) }

/-- `stem_rep` pattern CCCV-CCCV: condition. -/
def cQ5 (s : Str) : Bool := sliceEq s 0 4 4 8 && is_consonant (s.take 3) && vowelAt s 3

/-- `stem_rep` pattern CCCV-CCCV: result. -/
def rQ5 (t : Stem) : Stem := { t.dropN 4 with rep := some (t.text.take 4) }

/-- The first assignment chain of `stem_rep`: the `if/elif` chain over V-V,
CV-CV and (under `len(token) > 5`) the 2-consonant-cluster patterns. -/
def rep_chain1 (t : Stem) : Option Stem :=
  let s := t.text
  if cVV s then some (rVV t)
  else if cCVCV s then some (rCVCV t)
  else if decide (5 < s.length) then
    if cCVCCV s then some (rCVCCV t)
    else if cCCCCV s then some (rCCCCV t)
    else if cCCVCCV s then some (rCCVCCV t)
    else none
  else none

/-- The second assignment chain of `stem_rep`: the separate
`if len(token) > 6:` statement over the 3-consonant-cluster patterns. -/
def rep_chain2 (t : Stem) : Option Stem :=
  let s := t.text
  if decide (6 < s.length) then
    if cQ1 s then some (rQ1 t)
    else if cQ2 s then some (rQ2 t)
    else if cQ3 s then some (rQ3 t)
    else if cQ4 s then some (rQ4 t)
    else if cQ5 s then some (rQ5 t)
    else none
  else none

/-- The body of `stem_rep` for one candidate: the first chain assigns `stem`,
then the second chain reassigns it whenever one of its patterns matches. -/
def stem_rep_one (t : Stem) : Option Stem :=
  match rep_chain2 t with
  | some r => some r
  | none => rep_chain1 t

/-- `stemmer.stem_rep`. -/
def stem_rep (tokens : List Stem) : List Stem :=
  tokens.flatMap (fun t => (stem_rep_one t).toList)

/-- The branch chain of `stem_dup` on the two hyphen-separated parts `first`
and `second` (both already known to have length > 1). -/
def dup_two (t : Stem) (p1 p2 : Str) : List Stem :=
  if p1 == p2 then [{ t with text := p1, dup := some p1 }]
  else if decide (2 < p1.length) && decide (4 < p2.length) && p1.isPrefixOf p2 then
    [{ t with text := p2, dup := some p1 }]
  else if (decide (2 < p1.length) && (p1.getLast? == some 'u')
            && ((replace_letter ({ t with text := p1 }) (-1) 'o').text == p2))
          || ((p1.get? (p1.length - 2) == some 'u')
            && ((replace_letter ({ t with text := p1 }) (-2) 'o').text == p2)) then
    [{ t with text := p2, dup := some p2, phoneme_change := some "dup: o/u".toList }]
  else if decide (3 < p1.length)
          && (p1.drop (p1.length - 2) == "ng".toList
              || p1.drop (p1.length - 2) == [apoC, 't']) then
    if p1.take (p1.length - 2) == p2 then
      [{ t with text := p2, dup := some p2, contraction := some (p1.drop (p1.length - 2)) }]
    else
      if (p1.get? (p1.length - 3) == some 'u') && (p1.take (p1.length - 3) ++ ['o'] == p2) then
        [{ t with text := p2, dup := some p2, contraction := some (p1.drop (p1.length - 2)) }]
      else if p1.drop (p1.length - 2) == "ng".toList then
        if p1.take (p1.length - 1) == p2 then
          [{ t with text := p2, dup := some p2, contraction := some (p1.drop (p1.length - 1)) }]
        else if (p1.get? (p1.length - 3) == some 'u')
                && ((replace_letter ({ t with text := p1.take (p1.length - 1) }) (-2) 'o').text == p2) then
          [{ t with text := p2, dup := some p2, contraction := some (p1.drop (p1.length - 1)), phoneme_change := some "dup: o/u".toList }]
        else []
      else []
  else if decide (2 < p1.length) && (p1.getLast? == some 't') then
    if p1.take (p1.length - 1) == p2 then
      [{ t with text := p2, dup := some p2, contraction := some (p1.drop (p1.length - 1)) }]
    else if (p1.get? (p1.length - 2) == some 'u') && (p1.take (p1.length - 2) ++ ['o'] == p2) then
      [{ t with text := p2, dup := some p2, contraction := some (p1.drop (p1.length - 1)), phoneme_change := some "dup: o/u".toList }]
    else []
  else []

/-- The body of `stem_dup` for one candidate: full reduplication across a
single interior hyphen.  The split parts inherit the candidate's annotations
(`Stem.split` copies the dictionary), which `dup_two` reflects by building its
emissions from `t` with only the text replaced. -/
def stem_dup_one (t : Stem) : List Stem :=
  let s := t.text
  if s.contains '-' && !(s.head? == some '-') && !(s.getLast? == some '-')
      && decide ((splitDash s).length = 2) then
    match splitDash s with
    | [p1, p2] =>
      if decide (1 < p1.length) && decide (1 < p2.length) then dup_two t p1 p2
      else []
    | _ => []
  else []

/-- `stemmer.stem_dup`. -/
def stem_dup (tokens : List Stem) : List Stem :=
  tokens.flatMap stem_dup_one

/-- Adding one candidate to the frontier: the Python `set` keeps the existing
record when a candidate with the same text is already present. -/
def addStem (F : List Stem) (s : Stem) : List Stem :=
  if F.any (fun c => c.text == s.text) then F else F ++ [s]

/-- `stems.update(...)` on the frontier. -/
def updateStems (F : List Stem) (ns : List Stem) : List Stem := ns.foldl addStem F

/-- `apply_stemming` specialised to the fixed pipeline of `get_stem_candidates`:
`stem_dup, stem_pre, stem_rep, stem_inf, stem_rep, stem_suf, stem_dup`, each
applied to the accumulated frontier, with only `stem_suf` receiving the
lexicon. -/
def pipelineStems (pfxs ifxs sfxs : List Str) (vw : Option (List Str)) (tok : Stem) :
    Except Unit (List Stem) :=
  let f0 := [tok]
  let f1 := updateStems f0 (stem_dup f0)
  match stem_pre pfxs f1 with
  | Except.error e => Except.error e
  | Except.ok d1 =>
    let f2 := updateStems f1 d1
    let f3 := updateStems f2 (stem_rep f2)
    match stem_inf ifxs f3 with
    | Except.error e => Except.error e
    | Except.ok d2 =>
      let f4 := updateStems f3 d2
      let f5 := updateStems f4 (stem_rep f4)
      let f6 := updateStems f5 (stem_suf sfxs vw f5)
      Except.ok (updateStems f6 (stem_dup f6))

/-- Stable insertion of a candidate into a score-descending list (the earlier
element wins ties, as Python's stable `sorted` does). -/
def insDesc (x : Stem) : List Stem → List Stem
  | [] => [x]
  | y :: ys => if score y ≤ score x then x :: y :: ys else y :: insDesc x ys

/-- `stemmer.sort_candidates`: stable sort by
`count_affixes + count_reduplication`, descending. -/
def sort_candidates (l : List Stem) : List Stem := l.foldr insDesc []

/-- Python whitespace for `str.strip`. -/
def isWS (c : Char) : Bool :=
  c == ' ' || c == '\t' || c == '\n' || c == '\r' || c == Char.ofNat 11 || c == Char.ofNat 12

/-- `token.strip()`. -/
def stripWS (s : Str) : Str := ((s.dropWhile isWS).reverse.dropWhile isWS).reverse

/-- `token.strip().lower()`. -/
def normalize (s : Str) : Str := (stripWS s).map lowerChar

/-- The filter of `get_stem_candidates`:
`is_valid(stem, valid_words) and is_acceptable(stem)`, by truthiness. -/
def validAcceptable (vw : Option (List Str)) (s : Stem) : Bool :=
  truthyStem (is_valid s vw) && is_acceptable s.text

/-- `stemmer.get_stem_candidates`. -/
def get_stem_candidates (pfxs ifxs sfxs : List Str) (vw : Option (List Str)) (w : Str) :
    Except Unit (List Stem) :=
  let tok := mkStem (normalize w)
  match pipelineStems pfxs ifxs sfxs vw tok with
  | Except.error e => Except.error e
  | Except.ok stems =>
    let cands := stems.filter (validAcceptable vw)
    if cands.isEmpty then Except.ok [tok] else Except.ok (sort_candidates cands)

/-- `candidates = [c for c in candidates if c != token]` — the comparison is
the inherited string equality, so it filters by text. -/
def survivorsOf (tok : Stem) (cands : List Stem) : List Stem :=
  cands.filter (fun c => !(c.text == tok.text))

/-- The selection stage of `get_stem` (lines 64-80 of `stemmer.py`): drop the
original token, build the no-transformation and no-contraction classes, pick
the first non-empty of intersection (a Python set intersection, which compares
candidates by text) / no-contraction / no-transformation / all survivors, and
return the head of the score-sorted class. -/
def get_stem_select (tok : Stem) (cands : List Stem) : Stem :=
  let survivors := survivorsOf tok cands
  if survivors.isEmpty then tok
  else
    let no_tr := survivors.filter (fun c => decide (c.count_transformations = 0))
    let no_co := survivors.filter (fun c => !truthyO c.contraction)
    let ntc := no_tr.filter (fun c => no_co.any (fun d => d.text == c.text))
    if !ntc.isEmpty then (sort_candidates ntc).headD tok
    else if !no_co.isEmpty then (sort_candidates no_co).headD tok
    else if !no_tr.isEmpty then (sort_candidates no_tr).headD tok
    else (sort_candidates survivors).headD tok

/-- `stemmer.get_stem`. -/
def get_stem (pfxs ifxs sfxs : List Str) (vw : Option (List Str)) (w : Str) :
    Except Unit Stem :=
  let tok := mkStem (normalize w)
  match get_stem_candidates pfxs ifxs sfxs vw w with
  | Except.error e => Except.error e
  | Except.ok cands => Except.ok (get_stem_select tok cands)

/-- Modelled from the spec: the affix resource file `prefixes.txt` is not under
`src/`; the prefixes appearing in the spec's examples (sections 4.4.1 and 8),
sorted by ascending length as the loader does. -/
def PREFIXES : List Str :=
  ["i", "ma", "pa", "mag", "nag", "pag", "pam", "pan", "pang"].map String.toList

/-- Modelled from the spec: the affix resource file `infixes.txt` is not under
`src/`; the infixes appearing in the spec's examples, sorted by length. -/
def INFIXES : List Str := ["in", "um"].map String.toList

/-- Modelled from the spec: the affix resource file `suffixes.txt` is not under
`src/`; the suffixes named by the spec (section 4.4.3), sorted by length. -/
def SUFFIXES : List Str :=
  [['g'], "ng".toList, [apoC, 't'], [apoC, 'y'],
   "in".toList, "an".toList, "han".toList, "hin".toList]

/-- Claim C1's preference classes over the surviving candidates: the
no-transformation/no-contraction intersection, then the no-contraction class,
then the no-transformation class, then all survivors — the first non-empty
one. -/
def firstClass (tok : Stem) (cands : List Stem) : List Stem :=
  let survivors := survivorsOf tok cands
  let tk := survivors.filter (fun c => decide (c.count_transformations = 0) && !truthyO c.contraction)
  let k0 := survivors.filter (fun c => !truthyO c.contraction)
  let t0 := survivors.filter (fun c => decide (c.count_transformations = 0))
  if !tk.isEmpty then tk
  else if !k0.isEmpty then k0
  else if !t0.isEmpty then t0
  else survivors

/-- First-match selection over a list of (condition, result) pattern pairs, as
claim C5 reads `stem_rep`. -/
def firstMatchP : List (Bool × Stem) → Option Stem
  | [] => none
  | (c, r) :: rest => if c then some r else firstMatchP rest

/-- Claim C5's first pattern group in listed order: V-V, CV-CV, and the three
2-consonant-cluster patterns guarded by `|t| > 5`. -/
def repPatternsA (t : Stem) : List (Bool × Stem) :=
  [(cVV t.text, rVV t),
   (cCVCV t.text, rCVCV t),
   (decide (5 < t.text.length) && cCVCCV t.text, rCVCCV t),
   (decide (5 < t.text.length) && cCCCCV t.text, rCCCCV t),
   (decide (5 < t.text.length) && cCCVCCV t.text, rCCVCCV t)]

/-- Claim C5's second pattern group: the five 3-consonant-cluster patterns
guarded by `|t| > 6`. -/
def repPatternsB (t : Stem) : List (Bool × Stem) :=
  [(decide (6 < t.text.length) && cQ1 t.text, rQ1 t),
   (decide (6 < t.text.length) && cQ2 t.text, rQ2 t),
   (decide (6 < t.text.length) && cQ3 t.text, rQ3 t),
   (decide (6 < t.text.length) && cQ4 t.text, rQ4 t),
   (decide (6 < t.text.length) && cQ5 t.text, rQ5 t)]

/-- Claim C5 as stated: the first matching pattern of the whole listed order
determines the emitted stem. -/
def rep_first_listed (t : Stem) : Option Stem :=
  firstMatchP (repPatternsA t ++ repPatternsB t)

/-- The amended reading of `stem_rep`: a match in the 3-consonant-cluster group
overrides any match from the first group. -/
def rep_with_override (t : Stem) : Option Stem :=
  match firstMatchP (repPatternsB t) with
  | some r => some r
  | none => firstMatchP (repPatternsA t)

/-- C9: `is_valid` with an empty but present lexicon returns the token — an
empty lexicon accepts everything, exactly as an absent (`None`) lexicon does,
because `if not valid_words` is taken for both. -/
theorem C9_is_valid_empty_lexicon (t : Stem) :
    is_valid t (some []) = some t ∧ is_valid t none = some t :=
  ⟨rfl, rfl⟩

/-- C2: runtime stemming can raise, contrary to the spec.  With any prefix
list containing `"pa"`, `get_stem "par"` strips the prefix, leaves `s = "r"`,
and the d/r phoneme-change test reads `s[1]`, which is out of bounds
(`IndexError`, modelled by `Except.error ()`); `get_stem "pa-"` strips the
prefix, drops the hyphen, leaves `s = ""`, and reads `s[0]`. -/
theorem C2_runtime_raises :
    get_stem PREFIXES INFIXES SUFFIXES none "par".toList = Except.error ()
    ∧ get_stem PREFIXES INFIXES SUFFIXES none "pa-".toList = Except.error () :=
  ⟨rfl, rfl⟩

/-- C3 counterexample: `t = "bag"` ends in suffix `g` with `|t| > 1` and
`s = "ba"` has `s[-1] = 'a' ≠ 'n'`; the claim says `s` is emitted tagged
`contraction = "g"`, but `stem_suf` emits nothing at all for this suffix — the
source's guard is `stem[-1] != "n"`, the opposite of the spec's. -/
theorem C3_counterexample :
    suf_one ['g'] none (mkStem "bag".toList) = []
    ∧ "ba".toList.getLast? ≠ some 'n' :=
  ⟨rfl, by decide⟩

/-- C4 counterexample: with the lexicon `["aalis", "alis"]`, the word
`"aalis"` is a lexicon member, yet `get_stem` returns `"alis"` (the V-V
reduplication candidate, lexicon-valid and acceptable), not `"aalis"` itself. -/
theorem C4_counterexample :
    get_stem PREFIXES INFIXES SUFFIXES (some (["aalis", "alis"].map String.toList)) "aalis".toList
      = Except.ok { mkStem "alis".toList with rep := some ['a'] }
    ∧ "aalis".toList ∈ ["aalis", "alis"].map String.toList
    ∧ ({ mkStem "alis".toList with rep := some ['a'] } : Stem).text ≠ "aalis".toList :=
  ⟨rfl, by decide, by decide⟩

/-- C5 counterexample: on `t = "bbbbbba"` the CV-CV pattern (second in the
claimed order) matches, so the claim's first-match reading emits `"bbbba"`;
the code's separate `len > 6` block then overrides with the CCC-CCCV match and
emits `"bbba"` — a later pattern determines the result. -/
theorem C5_counterexample :
    rep_first_listed (mkStem "bbbbbba".toList) = some (rCVCV (mkStem "bbbbbba".toList))
    ∧ stem_rep_one (mkStem "bbbbbba".toList) = some (rQ4 (mkStem "bbbbbba".toList))
    ∧ (rCVCV (mkStem "bbbbbba".toList)).text ≠ (rQ4 (mkStem "bbbbbba".toList)).text :=
  ⟨rfl, rfl, by decide⟩

/-- C6 counterexample: prefix `"pam"` ends in `m` and matches `"pambata"`, but
the stripped stem `"bata"` does not start with a vowel, so the b/p assimilation
candidates are NOT emitted — the rule has further conditions on `s`
(`is_acceptable(stem) and is_vowel(stem[0])`), contrary to the claim. -/
theorem C6_counterexample :
    pre_one "pam".toList (mkStem "pambata".toList)
      = Except.ok [{ mkStem "bata".toList with pre := some "pam".toList }]
    ∧ "pam".toList.getLast? = some 'm'
    ∧ ({ consC 'b' { mkStem "bata".toList with pre := some "pam".toList } with
         assimilation := some "b/p: b".toList } : Stem)
        ∉ [({ mkStem "bata".toList with pre := some "pam".toList } : Stem)] :=
  ⟨rfl, rfl, by decide⟩

/-- C7 counterexample: `"bla9-bla9"` contains the digit `9`, which is outside
the Tagalog alphabet, yet `stem_dup` matches the exact full reduplication and
`get_stem` (with an absent lexicon) returns `"bla9"`, not the token itself. -/
theorem C7_counterexample :
    get_stem PREFIXES INFIXES SUFFIXES none "bla9-bla9".toList
      = Except.ok { mkStem "bla9".toList with dup := some "bla9".toList }
    ∧ ('9' ∈ "bla9-bla9".toList ∧ isVowelC '9' = false ∧ isConsC '9' = false)
    ∧ ({ mkStem "bla9".toList with dup := some "bla9".toList } : Stem).text ≠ "bla9-bla9".toList :=
  ⟨rfl, by decide, by decide⟩

theorem rep_chain1_eq_firstMatch (t : Stem) :
    rep_chain1 t = firstMatchP (repPatternsA t) := by
  unfold rep_chain1 repPatternsA
  by_cases h1 : cVV t.text <;> by_cases h2 : cCVCV t.text <;>
    by_cases h3 : 5 < t.text.length <;>
    simp [firstMatchP, h1, h2, h3]

theorem rep_chain2_eq_firstMatch (t : Stem) :
    rep_chain2 t = firstMatchP (repPatternsB t) := by
  unfold rep_chain2 repPatternsB
  by_cases h : 6 < t.text.length <;> simp [firstMatchP, h]

/-- C5 (amended): for every candidate `t`, `stem_rep` emits at most one stem,
and that stem is determined by first-match within each of the two pattern
groups, except that when `|t| > 6` a match among the five
3-consonant-cluster patterns overrides any match from the earlier group (the
source's `len > 6` block is a separate `if`, not an `elif`). -/
theorem C5_rep_first_match (t : Stem) :
    stem_rep_one t = rep_with_override t ∧ (stem_rep [t]).length ≤ 1 := by
  constructor
  · unfold stem_rep_one rep_with_override
    rw [rep_chain1_eq_firstMatch, rep_chain2_eq_firstMatch]
  · unfold stem_rep
    cases h : stem_rep_one t <;> simp [h]

theorem suf_emit_self_mem (stem : Stem) (f : Str) (vw : Option (List Str)) :
    stem ∈ suf_emit stem f vw := by
  unfold suf_emit
  simp

/-- C3 (amended): in `stem_suf`, for every candidate `t` ending in suffix `g`
with `|t| > 1` and stripped form `s = t[:-1]`, the candidate `s` is emitted
tagged `contraction = "g"` exactly when `s[-1] == 'n'`; when `s[-1] != 'n'`
the suffix is skipped entirely (no candidate and no further derivations for
that suffix) — the opposite polarity of the claim as stated. -/
theorem C3_g_contraction (vw : Option (List Str)) (t : Stem) (s : Str)
    (h : t.text = s ++ ['g']) (hs : s ≠ []) :
    (s.getLast? = some 'n' →
      ({ t with text := s, contraction := some ['g'] } : Stem) ∈ suf_one ['g'] vw t)
    ∧ (s.getLast? ≠ some 'n' → suf_one ['g'] vw t = []) := by
  have hlen : t.text.length = s.length + 1 := by rw [h]; simp
  have hsuf : (['g'] : Str).isSuffixOf t.text = true := by
    rw [h]; simp [List.isSuffixOf, List.isPrefixOf]
  have htake : t.text.take (t.text.length - 1) = s := by
    rw [h]
    simp
  have hgt : (decide ((['g'] : Str).length < t.text.length)) = true := by
    rw [hlen]
    have : 0 < s.length := List.length_pos.mpr hs
    simp
    omega
  have hstem0 : t.takeN (t.text.length - (['g'] : Str).length) = { t with text := s } := by
    unfold Stem.takeN
    simpa using htake
  constructor
  · intro hn
    unfold suf_one
    rw [hsuf, hgt, hstem0]
    have hne : ((({ t with text := s } : Stem).text.getLast? == some 'n')) = true := by
      simp [hn]
    simp only [Bool.and_self, if_true, hne]
    norm_num
    exact suf_emit_self_mem _ _ _
  · intro hn
    unfold suf_one
    rw [hsuf, hgt, hstem0]
    have hne : ((({ t with text := s } : Stem).text.getLast? == some 'n')) = false := by
      simpa using hn
    simp [hne]

theorem insDesc_ne_nil (x : Stem) (l : List Stem) : insDesc x l ≠ [] := by
  cases l with
  | nil => simp [insDesc]
  | cons y ys =>
    unfold insDesc
    by_cases h : score y ≤ score x <;> simp [h]

theorem mem_insDesc (x y : Stem) (l : List Stem) :
    y ∈ insDesc x l ↔ y = x ∨ y ∈ l := by
  induction l with
  | nil => simp [insDesc]
  | cons z zs ih =>
    unfold insDesc
    by_cases h : score z ≤ score x
    · simp [h]
    · simp [h, ih]
      tauto

theorem sort_candidates_cons (x : Stem) (xs : List Stem) :
    sort_candidates (x :: xs) = insDesc x (sort_candidates xs) := rfl

theorem sort_candidates_ne_nil (l : List Stem) (h : l ≠ []) :
    sort_candidates l ≠ [] := by
  cases l with
  | nil => exact absurd rfl h
  | cons x xs => rw [sort_candidates_cons]; exact insDesc_ne_nil x _

theorem mem_sort_candidates (y : Stem) (l : List Stem) :
    y ∈ sort_candidates l ↔ y ∈ l := by
  induction l with
  | nil => simp [sort_candidates]
  | cons x xs ih =>
    rw [sort_candidates_cons, mem_insDesc]
    simp [ih]

theorem insDesc_headD (x : Stem) (l : List Stem) (d : Stem) :
    ((insDesc x l).headD d = x ∧ (l = [] ∨ score (l.headD d) ≤ score x))
    ∨ ((insDesc x l).headD d = l.headD d ∧ score x ≤ score (l.headD d) ∧ l ≠ []) := by
  cases l with
  | nil => left; exact ⟨rfl, Or.inl rfl⟩
  | cons y ys =>
    unfold insDesc
    by_cases h : score y ≤ score x
    · left
      simp [h]
    · right
      simp [h]
      omega

theorem sort_headD_max (l : List Stem) (d : Stem) (h : l ≠ []) :
    (sort_candidates l).headD d ∈ l
    ∧ ∀ y ∈ l, score y ≤ score ((sort_candidates l).headD d) := by
  induction l with
  | nil => exact absurd rfl h
  | cons x xs ih =>
    rw [sort_candidates_cons]
    by_cases hxs : xs = []
    · subst hxs
      simp [sort_candidates, insDesc]
    · obtain ⟨ihm, ihmax⟩ := ih hxs
      have hne : sort_candidates xs ≠ [] := sort_candidates_ne_nil xs hxs
      rcases insDesc_headD x (sort_candidates xs) d with ⟨he, hcmp⟩ | ⟨he, hcmp, _⟩
      · rw [he]
        refine ⟨List.mem_cons_self x xs, ?_⟩
        intro y hy
        rcases List.mem_cons.mp hy with rfl | hy'
        · exact le_refl _
        · rcases hcmp with hnil | hle
          · exact absurd hnil hne
          · exact le_trans (ihmax y hy') hle
      · rw [he]
        refine ⟨List.mem_cons_of_mem x ihm, ?_⟩
        intro y hy
        rcases List.mem_cons.mp hy with rfl | hy'
        · exact hcmp
        · exact ihmax y hy'

theorem nodup_text_filter (p : Stem → Bool) (l : List Stem)
    (h : (l.map Stem.text).Nodup) : ((l.filter p).map Stem.text).Nodup :=
  List.Nodup.sublist (List.Sublist.map Stem.text (List.filter_sublist l)) h

/-- The Python set intersection `set(no_transformations) & set(no_contractions)`
(which compares candidates by text) coincides, on a text-distinct survivor
list, with filtering by the conjunction of the two class predicates. -/
theorem ntc_eq_conj (survivors : List Stem)
    (hnd : (survivors.map Stem.text).Nodup) :
    (survivors.filter (fun c => decide (c.count_transformations = 0))).filter
      (fun c => (survivors.filter (fun c => !truthyO c.contraction)).any (fun d => d.text == c.text))
    = survivors.filter (fun c => decide (c.count_transformations = 0) && !truthyO c.contraction) := by
  rw [List.filter_filter]
  apply List.filter_congr
  intro c hc
  have hany : ((survivors.filter (fun c => !truthyO c.contraction)).any (fun d => d.text == c.text))
      = !truthyO c.contraction := by
    by_cases hco : truthyO c.contraction = true
    · rw [hco, Bool.not_true, ← Bool.not_eq_true, List.any_eq_true]
      rintro ⟨d, hd, hbeq⟩
      have hdc : d.text = c.text := by simpa using hbeq
      obtain ⟨hdS, hdP⟩ := List.mem_filter.mp hd
      have hdceq : d = c := List.inj_on_of_nodup_map hnd hdS hc hdc
      subst hdceq
      rw [hco] at hdP
      simp at hdP
    · have hco' : truthyO c.contraction = false := Bool.eq_false_iff.mpr hco
      rw [hco', Bool.not_false, List.any_eq_true]
      exact ⟨c, List.mem_filter.mpr ⟨hc, by rw [hco']; rfl⟩, by simp⟩
  rw [hany]
  exact Bool.and_comm _ _

theorem isEmpty_false_of_ne_nil {α : Type} {l : List α} (h : l ≠ []) : l.isEmpty = false := by
  cases l with
  | nil => exact absurd rfl h
  | cons a as => rfl

/-- The selection stage on a text-distinct candidate list with at least one
survivor returns a member of the first non-empty preference class with maximal
score in that class. -/
theorem get_stem_select_spec (tok : Stem) (cands : List Stem)
    (hnd : (cands.map Stem.text).Nodup)
    (hs : survivorsOf tok cands ≠ []) :
    get_stem_select tok cands ∈ firstClass tok cands
    ∧ ∀ c ∈ firstClass tok cands, score c ≤ score (get_stem_select tok cands) := by
  have hndS : ((survivorsOf tok cands).map Stem.text).Nodup := by
    unfold survivorsOf
    exact nodup_text_filter _ cands hnd
  have hSe : (survivorsOf tok cands).isEmpty = false := isEmpty_false_of_ne_nil hs
  simp only [get_stem_select, firstClass, hSe, Bool.false_eq_true, if_false]
  rw [ntc_eq_conj _ hndS]
  by_cases h1 : (survivorsOf tok cands).filter
      (fun c => decide (c.count_transformations = 0) && !truthyO c.contraction) = []
  · rw [h1]
    simp only [List.isEmpty_nil, Bool.not_true, Bool.false_eq_true, if_false]
    by_cases h2 : (survivorsOf tok cands).filter (fun c => !truthyO c.contraction) = []
    · rw [h2]
      simp only [List.isEmpty_nil, Bool.not_true, Bool.false_eq_true, if_false]
      by_cases h3 : (survivorsOf tok cands).filter
          (fun c => decide (c.count_transformations = 0)) = []
      · rw [h3]
        simp only [List.isEmpty_nil, Bool.not_true, Bool.false_eq_true, if_false]
        exact sort_headD_max _ tok hs
      · simp only [isEmpty_false_of_ne_nil h3, Bool.not_false, if_true]
        exact sort_headD_max _ tok h3
    · simp only [isEmpty_false_of_ne_nil h2, Bool.not_false, if_true]
      exact sort_headD_max _ tok h2
  · simp only [isEmpty_false_of_ne_nil h1, Bool.not_false, if_true]
    exact sort_headD_max _ tok h1

theorem insDesc_perm (x : Stem) (l : List Stem) : (insDesc x l).Perm (x :: l) := by
  induction l with
  | nil => exact List.Perm.refl _
  | cons y ys ih =>
    unfold insDesc
    by_cases h : score y ≤ score x
    · rw [if_pos h]
    · rw [if_neg h]
      exact (List.Perm.cons y ih).trans (List.Perm.swap x y ys)

theorem sort_candidates_perm (l : List Stem) : (sort_candidates l).Perm l := by
  induction l with
  | nil => exact List.Perm.refl _
  | cons x xs ih =>
    rw [sort_candidates_cons]
    exact (insDesc_perm x (sort_candidates xs)).trans (List.Perm.cons x ih)

theorem mem_cands_of_mem_survivors {tok : Stem} {cands : List Stem} {x : Stem}
    (hx : x ∈ survivorsOf tok cands) : x ∈ cands := by
  unfold survivorsOf at hx
  exact (List.mem_filter.mp hx).1

/-- The value `get_stem` selects is either the original token or one of the
candidates it was given. -/
theorem get_stem_select_mem (tok : Stem) (cands : List Stem) :
    get_stem_select tok cands = tok ∨ get_stem_select tok cands ∈ cands := by
  simp only [get_stem_select]
  by_cases hse : (survivorsOf tok cands).isEmpty = true
  · simp [hse]
  · have hsne : survivorsOf tok cands ≠ [] := by
      intro hh
      rw [hh] at hse
      exact hse rfl
    rw [if_neg hse]
    right
    by_cases h1 : ((survivorsOf tok cands).filter
        (fun c => decide (c.count_transformations = 0))).filter
        (fun c => ((survivorsOf tok cands).filter (fun c => !truthyO c.contraction)).any
          (fun d => d.text == c.text)) = []
    · rw [h1]
      simp only [List.isEmpty_nil, Bool.not_true, Bool.false_eq_true, if_false]
      by_cases h2 : (survivorsOf tok cands).filter (fun c => !truthyO c.contraction) = []
      · rw [h2]
        simp only [List.isEmpty_nil, Bool.not_true, Bool.false_eq_true, if_false]
        by_cases h3 : (survivorsOf tok cands).filter
            (fun c => decide (c.count_transformations = 0)) = []
        · rw [h3]
          simp only [List.isEmpty_nil, Bool.not_true, Bool.false_eq_true, if_false]
          exact mem_cands_of_mem_survivors (sort_headD_max _ tok hsne).1
        · simp only [isEmpty_false_of_ne_nil h3, Bool.not_false, if_true]
          exact mem_cands_of_mem_survivors ((List.mem_filter.mp (sort_headD_max _ tok h3).1).1)
      · simp only [isEmpty_false_of_ne_nil h2, Bool.not_false, if_true]
        exact mem_cands_of_mem_survivors ((List.mem_filter.mp (sort_headD_max _ tok h2).1).1)
    · simp only [isEmpty_false_of_ne_nil h1, Bool.not_false, if_true]
      have hm := (sort_headD_max _ tok h1).1
      exact mem_cands_of_mem_survivors
        ((List.mem_filter.mp ((List.mem_filter.mp hm).1)).1)

theorem text_mem_of_valid {c : Stem} {ws : List Str} (hne : ws ≠ [])
    (h : truthyStem (is_valid c (some ws)) = true) : c.text ∈ ws := by
  simp only [is_valid, isEmpty_false_of_ne_nil hne, Bool.false_eq_true, if_false] at h
  by_cases hc : ws.contains c.text = true
  · simpa using hc
  · rw [if_neg hc] at h
    exact absurd h (by simp [truthyStem])

/-- C10: `get_stem_candidates`, whenever it returns, returns a non-empty list;
and when no pipeline candidate is both lexicon-valid and acceptable it returns
exactly the singleton normalized input token. -/
theorem C10_candidates_nonempty (pfxs ifxs sfxs : List Str) (vw : Option (List Str))
    (w : Str) (l : List Stem)
    (h : get_stem_candidates pfxs ifxs sfxs vw w = Except.ok l) :
    l ≠ []
    ∧ (∀ stems, pipelineStems pfxs ifxs sfxs vw (mkStem (normalize w)) = Except.ok stems →
        stems.filter (validAcceptable vw) = [] → l = [mkStem (normalize w)]) := by
  simp only [get_stem_candidates] at h
  cases hp : pipelineStems pfxs ifxs sfxs vw (mkStem (normalize w)) with
  | error e =>
    rw [hp] at h
    exact absurd h (by simp)
  | ok stems =>
    rw [hp] at h
    simp only at h
    by_cases hc : (stems.filter (validAcceptable vw)).isEmpty = true
    · rw [if_pos hc] at h
      have hl : l = [mkStem (normalize w)] := by
        injection h with h'
        exact h'.symm
      subst hl
      refine ⟨by simp, ?_⟩
      intro stems' hp' _
      rfl
    · rw [if_neg hc] at h
      have hfe : stems.filter (validAcceptable vw) ≠ [] := by
        intro hh
        rw [hh] at hc
        exact hc rfl
      have hl : l = sort_candidates (stems.filter (validAcceptable vw)) := by
        injection h with h'
        exact h'.symm
      subst hl
      refine ⟨sort_candidates_ne_nil _ hfe, ?_⟩
      intro stems' hp' hf
      injection hp' with hse
      rw [← hse] at hf
      exact absurd hf hfe

/-- Witness for C10: a concrete successful run (`"aba"` with an absent
lexicon). -/
theorem C10_candidates_nonempty_witness :
    (get_stem_candidates PREFIXES INFIXES SUFFIXES none "aba".toList
        = Except.ok [mkStem "aba".toList])
    ∧ [mkStem "aba".toList] ≠ ([] : List Stem) :=
  ⟨rfl, (C10_candidates_nonempty PREFIXES INFIXES SUFFIXES none "aba".toList
      [mkStem "aba".toList] rfl).1⟩

/-- C4 (amended): stemming is closed over the lexicon — for every non-empty
lexicon `ws` and normalized member `w`, a successful `get_stem` returns a
candidate whose text is again a lexicon member (but not necessarily `w`
itself, see the counterexample). -/
theorem C4_lexicon_closed (pfxs ifxs sfxs : List Str) (ws : List Str) (w : Str) (r : Stem)
    (hne : ws ≠ []) (hmem : normalize w ∈ ws)
    (h : get_stem pfxs ifxs sfxs (some ws) w = Except.ok r) :
    r.text ∈ ws := by
  simp only [get_stem] at h
  cases hg : get_stem_candidates pfxs ifxs sfxs (some ws) w with
  | error e =>
    rw [hg] at h
    exact absurd h (by simp)
  | ok cands =>
    rw [hg] at h
    have hr : get_stem_select (mkStem (normalize w)) cands = r := by
      injection h
    have hcand : ∀ c ∈ cands, c.text ∈ ws := by
      intro c hcm
      simp only [get_stem_candidates] at hg
      cases hp : pipelineStems pfxs ifxs sfxs (some ws) (mkStem (normalize w)) with
      | error e =>
        rw [hp] at hg
        exact absurd hg (by simp)
      | ok stems =>
        rw [hp] at hg
        simp only at hg
        by_cases hc : (stems.filter (validAcceptable (some ws))).isEmpty = true
        · rw [if_pos hc] at hg
          injection hg with hg'
          rw [← hg'] at hcm
          have : c = mkStem (normalize w) := by simpa using hcm
          rw [this]
          exact hmem
        · rw [if_neg hc] at hg
          injection hg with hg'
          rw [← hg'] at hcm
          have hcm2 : c ∈ stems.filter (validAcceptable (some ws)) :=
            (mem_sort_candidates c _).mp hcm
          have hva : validAcceptable (some ws) c = true := (List.mem_filter.mp hcm2).2
          simp only [validAcceptable, Bool.and_eq_true] at hva
          exact text_mem_of_valid hne hva.1
    rcases get_stem_select_mem (mkStem (normalize w)) cands with he | hm
    · rw [← hr, he]
      exact hmem
    · rw [← hr]
      exact hcand _ hm

/-- Witness for C4 (amended): with the lexicon `["aalis", "alis"]` and the
member `"aalis"`, the returned stem `"alis"` is again a lexicon member. -/
theorem C4_lexicon_closed_witness :
    ({ mkStem "alis".toList with rep := some ['a'] } : Stem).text
      ∈ ["aalis", "alis"].map String.toList :=
  C4_lexicon_closed PREFIXES INFIXES SUFFIXES (["aalis", "alis"].map String.toList)
    "aalis".toList { mkStem "alis".toList with rep := some ['a'] }
    (by decide) (by decide) rfl

theorem singleton_isPrefixOf_iff (c : Char) (l : Str) :
    ([c] : Str).isPrefixOf l = true ↔ l.head? = some c := by
  cases l with
  | nil => simp [List.isPrefixOf]
  | cons x xs =>
    simp [List.isPrefixOf]
    exact eq_comm

theorem singleton_isSuffixOf_iff (c : Char) (l : Str) :
    ([c] : Str).isSuffixOf l = true ↔ l.getLast? = some c := by
  show ([c] : Str).reverse.isPrefixOf l.reverse = true ↔ _
  rw [show ([c] : Str).reverse = [c] from rfl, singleton_isPrefixOf_iff, List.head?_reverse]

theorem two_isSuffixOf_getLast (a b : Char) (l : Str)
    (h : ([a, b] : Str).isSuffixOf l = true) : l.getLast? = some b := by
  have h' : ([b, a] : Str).isPrefixOf l.reverse = true := by
    simpa [List.isSuffixOf] using h
  cases hr : l.reverse with
  | nil =>
    rw [hr] at h'
    simp [List.isPrefixOf] at h'
  | cons x xs =>
    rw [hr] at h'
    simp [List.isPrefixOf] at h'
    rw [← List.head?_reverse, hr]
    simp [h'.1]

/-- C6 (amended): in `stem_pre`, for a candidate whose matched prefix `p` ends
in `m`, whenever additionally the stripped (hyphen-dropped) stem `s` is
acceptable and starts with a vowel, the rule emits both `"b" + s` and
`"p" + s`, tagged `assimilation = "b/p: b"` and `"b/p: p"` — the acceptability
and initial-vowel conditions guard the whole assimilation block in the source
and cannot be dropped (see the counterexample). -/
theorem C6_bp_assimilation (p : Str) (t : Stem) (c0 : Char)
    (hmatch : p.isPrefixOf t.text = true) (hlen : p.length < t.text.length)
    (hpm : p.getLast? = some 'm')
    (hhead : (pre_strip p t).text.head? = some c0)
    (hacc : is_acceptable (pre_strip p t).text = true)
    (hv : isVowelC c0 = true) :
    ∃ l, pre_one p t = Except.ok l
      ∧ ({ consC 'b' (pre_strip p t) with assimilation := some "b/p: b".toList } : Stem) ∈ l
      ∧ ({ consC 'p' (pre_strip p t) with assimilation := some "b/p: p".toList } : Stem) ∈ l := by
  have hc0r : c0 ≠ 'r' := by
    intro hr
    rw [hr] at hv
    exact absurd hv (by decide)
  have hng : ("ng".toList.isSuffixOf p) = false := by
    rw [Bool.eq_false_iff]
    intro hh
    have hlast := two_isSuffixOf_getLast 'n' 'g' p (by simpa using hh)
    rw [hpm] at hlast
    simp at hlast
  have hm : ("m".toList.isSuffixOf p) = true :=
    (singleton_isSuffixOf_iff 'm' p).mpr hpm
  have hdr : pre_dr p (pre_strip p t) c0 = Except.ok [] := by
    unfold pre_dr
    rw [if_neg hc0r]
  refine ⟨[pre_strip p t] ++ [] ++ pre_asml p (pre_strip p t) c0, ?_, ?_, ?_⟩
  · simp [pre_one, hmatch, hlen, hhead, hdr]
  · simp only [pre_asml, hacc, hv, Bool.and_self, if_true, hng, Bool.false_eq_true, if_false, hm]
    simp
  · simp only [pre_asml, hacc, hv, Bool.and_self, if_true, hng, Bool.false_eq_true, if_false, hm]
    simp

/-- Witness for C6 (amended): `"pamigay"` against prefix `"pam"`: both
`"bigay"` and `"pigay"` are emitted with their assimilation tags. -/
theorem C6_bp_assimilation_witness :
    ∃ l, pre_one "pam".toList (mkStem "pamigay".toList) = Except.ok l
      ∧ ({ consC 'b' (pre_strip "pam".toList (mkStem "pamigay".toList)) with
           assimilation := some "b/p: b".toList } : Stem) ∈ l
      ∧ ({ consC 'p' (pre_strip "pam".toList (mkStem "pamigay".toList)) with
           assimilation := some "b/p: p".toList } : Stem) ∈ l :=
  C6_bp_assimilation "pam".toList (mkStem "pamigay".toList) 'i'
    (by decide) (by decide) rfl rfl (by decide) (by decide)

theorem mem_addStem {F : List Stem} {a e : Stem} (h : e ∈ addStem F a) :
    e ∈ F ∨ e = a := by
  unfold addStem at h
  by_cases hc : F.any (fun c => c.text == a.text) = true
  · rw [if_pos hc] at h
    exact Or.inl h
  · rw [if_neg hc] at h
    rcases List.mem_append.mp h with h1 | h1
    · exact Or.inl h1
    · right
      simpa using h1

theorem mem_updateStems {ns : List Stem} {F : List Stem} {e : Stem}
    (h : e ∈ updateStems F ns) : e ∈ F ∨ e ∈ ns := by
  induction ns generalizing F with
  | nil => exact Or.inl h
  | cons a as ih =>
    rcases ih (F := addStem F a) h with h1 | h2
    · rcases mem_addStem h1 with h3 | h3
      · exact Or.inl h3
      · right
        simp [h3]
    · right
      exact List.mem_cons_of_mem _ h2

theorem exceptFlat_ok_mem {α : Type} {f : α → Except Unit (List Stem)} {as : List α}
    {L : List Stem} {e : Stem} (h : exceptFlat f as = Except.ok L) (he : e ∈ L) :
    ∃ a ∈ as, ∃ l, f a = Except.ok l ∧ e ∈ l := by
  induction as generalizing L with
  | nil =>
    unfold exceptFlat at h
    injection h with h'
    rw [← h'] at he
    simp at he
  | cons a as ih =>
    unfold exceptFlat at h
    cases hfa : f a with
    | error e' =>
      rw [hfa] at h
      exact absurd h (by simp)
    | ok l1 =>
      cases hfr : exceptFlat f as with
      | error e' =>
        rw [hfa, hfr] at h
        exact absurd h (by simp)
      | ok l2 =>
        rw [hfa, hfr] at h
        injection h with h'
        rw [← h'] at he
        rcases List.mem_append.mp he with h1 | h2
        · exact ⟨a, by simp, l1, hfa, h1⟩
        · obtain ⟨b, hb, l, hfl, hel⟩ := ih hfr h2
          exact ⟨b, List.mem_cons_of_mem _ hb, l, hfl, hel⟩

theorem exceptFlat_all_nil {α : Type} {f : α → Except Unit (List Stem)} {as : List α}
    (h : ∀ a ∈ as, f a = Except.ok []) : exceptFlat f as = Except.ok [] := by
  induction as with
  | nil => rfl
  | cons a as ih =>
    unfold exceptFlat
    rw [h a (by simp), ih (fun b hb => h b (List.mem_cons_of_mem _ hb))]
    rfl

theorem isPrefixOf_subset : ∀ (p l : Str), p.isPrefixOf l = true → ∀ c ∈ p, c ∈ l := by
  intro p l h c hc
  have h' : p <+: l := by simpa using h
  exact h'.sublist.subset hc

theorem isSuffixOf_subset (f l : Str) (h : f.isSuffixOf l = true) : ∀ c ∈ f, c ∈ l := by
  intro c hc
  have h' : f.reverse.isPrefixOf l.reverse = true := by simpa [List.isSuffixOf] using h
  have := isPrefixOf_subset f.reverse l.reverse h' c (List.mem_reverse.mpr hc)
  exact List.mem_reverse.mp this

theorem splitDash_subset : ∀ (s : Str) (p : Str), p ∈ splitDash s → ∀ c ∈ p, c ∈ s := by
  intro s
  induction s with
  | nil =>
    intro p hp c hc
    simp [splitDash] at hp
    subst hp
    simp at hc
  | cons a as ih =>
    intro p hp c hc
    unfold splitDash at hp
    by_cases ha : a = '-'
    · rw [if_pos ha] at hp
      rcases List.mem_cons.mp hp with rfl | hp'
      · simp at hc
      · exact List.mem_cons_of_mem _ (ih p hp' c hc)
    · rw [if_neg ha] at hp
      cases hs : splitDash as with
      | nil =>
        rw [hs] at hp
        simp at hp
        subst hp
        simp at hc
        simp [hc]
      | cons h0 r =>
        rw [hs] at hp
        rcases List.mem_cons.mp hp with rfl | hp'
        · rcases List.mem_cons.mp hc with rfl | hc'
          · simp
          · exact List.mem_cons_of_mem _ (ih h0 (by rw [hs]; simp) c hc')
        · exact List.mem_cons_of_mem _ (ih p (by rw [hs]; exact List.mem_cons_of_mem _ hp') c hc)

theorem not_isEmpty_of_lt {l : Str} {n : Nat} (h : n < l.length) : l.isEmpty = false := by
  cases l with
  | nil => simp at h
  | cons a as => rfl

theorem annotated_of_pre {t : Stem} (h : truthyO t.pre = true) : annotated t = true := by
  unfold annotated
  rw [h]
  simp

theorem annotated_of_inf {t : Stem} (h : truthyO t.inf = true) : annotated t = true := by
  unfold annotated
  rw [h]
  simp

theorem annotated_of_suf {t : Stem} (h : truthyO t.suf = true) : annotated t = true := by
  unfold annotated
  rw [h]
  simp

theorem annotated_of_rep {t : Stem} (h : truthyO t.rep = true) : annotated t = true := by
  unfold annotated
  rw [h]
  simp

theorem annotated_of_dup {t : Stem} (h : truthyO t.dup = true) : annotated t = true := by
  unfold annotated
  rw [h]
  simp

theorem annotated_of_contraction {t : Stem} (h : truthyO t.contraction = true) :
    annotated t = true := by
  unfold annotated
  rw [h]
  simp

theorem annotated_of_pc {t : Stem} (h : truthyO t.phoneme_change = true) :
    annotated t = true := by
  unfold annotated
  rw [h]
  simp

theorem annotated_of_asml {t : Stem} (h : truthyO t.assimilation = true) :
    annotated t = true := by
  unfold annotated
  rw [h]
  simp

theorem annotated_of_vl {t : Stem} (h : truthyO t.vowel_loss = true) : annotated t = true := by
  unfold annotated
  rw [h]
  simp

theorem annotated_of_mtts {t : Stem} (h : t.metathesis = true) : annotated t = true := by
  unfold annotated
  rw [h]
  simp

theorem take_isEmpty_false {l : Str} {k : Nat} (hk : 0 < k) (hl : 0 < l.length) :
    (l.take k).isEmpty = false := by
  cases l with
  | nil => simp at hl
  | cons a as =>
    cases k with
    | zero => omega
    | succ m => rfl

theorem dup_two_dup {t e : Stem} {p1 p2 : Str} (h1 : 1 < p1.length) (h2 : 1 < p2.length)
    (he : e ∈ dup_two t p1 p2) : truthyO e.dup = true := by
  have t1 : p1.isEmpty = false := not_isEmpty_of_lt h1
  have t2 : p2.isEmpty = false := not_isEmpty_of_lt h2
  unfold dup_two at he
  repeat' split at he
  all_goals simp only [List.mem_singleton, List.not_mem_nil] at he
  all_goals subst he
  all_goals simp [truthyO, t1, t2]

theorem stem_dup_one_dup {t e : Stem} (he : e ∈ stem_dup_one t) : truthyO e.dup = true := by
  simp only [stem_dup_one] at he
  split at he
  · split at he
    · split at he
      · rename_i hcond
        simp only [Bool.and_eq_true, decide_eq_true_eq] at hcond
        exact dup_two_dup hcond.1 hcond.2 he
      · exact absurd he (by simp)
    · exact absurd he (by simp)
  · exact absurd he (by simp)

theorem rep_chain1_rep {t e : Stem} (h : rep_chain1 t = some e) : truthyO e.rep = true := by
  unfold rep_chain1 at h
  by_cases c1 : cVV t.text = true
  · rw [if_pos c1] at h
    injection h with h'
    subst h'
    have hl : 2 < t.text.length := by
      unfold cVV at c1
      simp only [Bool.and_eq_true, decide_eq_true_eq] at c1
      exact c1.1.1
    simp only [rVV, truthyO]
    rw [take_isEmpty_false (by omega) (by omega)]
    rfl
  · rw [if_neg c1] at h
    by_cases c2 : cCVCV t.text = true
    · rw [if_pos c2] at h
      injection h with h'
      subst h'
      have hl : 4 < t.text.length := by
        unfold cCVCV at c2
        simp only [Bool.and_eq_true, decide_eq_true_eq] at c2
        exact c2.1.1
      simp only [rCVCV, truthyO]
      rw [take_isEmpty_false (by omega) (by omega)]
      rfl
    · rw [if_neg c2] at h
      by_cases c3 : 5 < t.text.length
      · rw [if_pos (by simpa using c3)] at h
        by_cases c4 : cCVCCV t.text = true
        · rw [if_pos c4] at h
          injection h with h'
          subst h'
          simp only [rCVCCV, truthyO]
          rw [take_isEmpty_false (by omega) (by omega)]
          rfl
        · rw [if_neg c4] at h
          by_cases c5 : cCCCCV t.text = true
          · rw [if_pos c5] at h
            injection h with h'
            subst h'
            simp only [rCCCCV, truthyO]
            rw [take_isEmpty_false (by omega) (by omega)]
            rfl
          · rw [if_neg c5] at h
            by_cases c6 : cCCVCCV t.text = true
            · rw [if_pos c6] at h
              injection h with h'
              subst h'
              simp only [rCCVCCV, truthyO]
              rw [take_isEmpty_false (by omega) (by omega)]
              rfl
            · rw [if_neg c6] at h
              exact absurd h (by simp)
      · rw [if_neg (by simpa using c3)] at h
        exact absurd h (by simp)

theorem rep_chain2_rep {t e : Stem} (h : rep_chain2 t = some e) : truthyO e.rep = true := by
  unfold rep_chain2 at h
  by_cases c0 : 6 < t.text.length
  · rw [if_pos (by simpa using c0)] at h
    by_cases c1 : cQ1 t.text = true
    · rw [if_pos c1] at h
      injection h with h'
      subst h'
      simp only [rQ1, truthyO]
      rw [take_isEmpty_false (by omega) (by omega)]
      rfl
    · rw [if_neg c1] at h
      by_cases c2 : cQ2 t.text = true
      · rw [if_pos c2] at h
        injection h with h'
        subst h'
        simp only [rQ2, truthyO]
        rw [take_isEmpty_false (by omega) (by omega)]
        rfl
      · rw [if_neg c2] at h
        by_cases c3 : cQ3 t.text = true
        · rw [if_pos c3] at h
          injection h with h'
          subst h'
          simp only [rQ3, truthyO]
          rw [take_isEmpty_false (by omega) (by omega)]
          rfl
        · rw [if_neg c3] at h
          by_cases c4 : cQ4 t.text = true
          · rw [if_pos c4] at h
            injection h with h'
            subst h'
            simp only [rQ4, truthyO]
            rw [take_isEmpty_false (by omega) (by omega)]
            rfl
          · rw [if_neg c4] at h
            by_cases c5 : cQ5 t.text = true
            · rw [if_pos c5] at h
              injection h with h'
              subst h'
              simp only [rQ5, truthyO]
              rw [take_isEmpty_false (by omega) (by omega)]
              rfl
            · rw [if_neg c5] at h
              exact absurd h (by simp)
  · rw [if_neg (by simpa using c0)] at h
    exact absurd h (by simp)

theorem stem_rep_one_rep {t e : Stem} (he : stem_rep_one t = some e) :
    truthyO e.rep = true := by
  unfold stem_rep_one at he
  cases h2 : rep_chain2 t with
  | some r =>
    rw [h2] at he
    simp only at he
    injection he with he'
    subst he'
    exact rep_chain2_rep h2
  | none =>
    rw [h2] at he
    simp only at he
    exact rep_chain1_rep he

theorem pre_strip_pre (p : Str) (t : Stem) : (pre_strip p t).pre = some p := by
  simp only [pre_strip, Stem.dropN]
  split <;> rfl

theorem pre_dr_annotated {p : Str} {s : Stem} {c0 : Char} {dr : List Stem} {e : Stem}
    (h : pre_dr p s c0 = Except.ok dr) (he : e ∈ dr) : annotated e = true := by
  unfold pre_dr at h
  repeat' split at h
  all_goals try exact Except.noConfusion h
  all_goals injection h with h'
  all_goals rw [← h'] at he
  all_goals simp only [List.mem_singleton, List.not_mem_nil] at he
  all_goals subst he
  all_goals exact annotated_of_pc rfl

theorem pre_asml_annotated {p : Str} {s : Stem} {c0 : Char} {e : Stem}
    (he : e ∈ pre_asml p s c0) : annotated e = true := by
  simp only [pre_asml] at he
  by_cases hA : (is_acceptable s.text && isVowelC c0) = true
  case neg =>
    rw [if_neg hA] at he
    simp at he
  rw [if_pos hA] at he
  by_cases hB1 : ("ng".toList.isSuffixOf p) = true
  · rw [if_pos hB1] at he
    rcases List.mem_cons.mp he with rfl | he2
    · exact annotated_of_asml rfl
    · by_cases hC1 : (decide (3 < s.text.length) && ((s.text.drop 1).take 2 == "ng".toList)
          && (s.text.get? 0 == s.text.get? 3) && isVowelC c0) = true
      · rw [if_pos hC1] at he2
        have hlen : 3 < s.text.length := by
          simp only [Bool.and_eq_true, decide_eq_true_eq] at hC1
          exact hC1.1.1.1
        have hrep : annotated ({ Stem.dropN s 3 with rep := some (s.text.take 3) } : Stem) = true := by
          apply annotated_of_rep
          simp only [truthyO]
          rw [take_isEmpty_false (by omega) (by omega)]
          rfl
        by_cases hD1 : is_acceptable ({ Stem.dropN s 3 with rep := some (s.text.take 3) } : Stem).text = true
        · rw [if_pos hD1] at he2
          rcases List.mem_cons.mp he2 with rfl | he3
          · exact hrep
          · rcases List.mem_cons.mp he3 with rfl | he4
            · exact annotated_of_asml rfl
            · simp at he4
        · rw [if_neg hD1] at he2
          rcases List.mem_cons.mp he2 with rfl | he3
          · exact hrep
          · simp at he3
      · rw [if_neg hC1] at he2
        simp at he2
  · rw [if_neg hB1] at he
    by_cases hB2 : ("m".toList.isSuffixOf p) = true
    · rw [if_pos hB2] at he
      rcases List.mem_append.mp he with h1 | h1
      · simp only [List.mem_cons, List.not_mem_nil, or_false] at h1
        rcases h1 with rfl | rfl <;> exact annotated_of_asml rfl
      · by_cases hC2 : (decide (2 < s.text.length) && (s.text.get? 1 == some 'm')
            && (s.text.get? 0 == s.text.get? 2) && isVowelC c0) = true
        · rw [if_pos hC2] at h1
          simp only [List.mem_cons, List.not_mem_nil, or_false] at h1
          rcases h1 with rfl | rfl <;> exact annotated_of_asml rfl
        · rw [if_neg hC2] at h1
          simp at h1
    · rw [if_neg hB2] at he
      by_cases hB3 : ("n".toList.isSuffixOf p) = true
      · rw [if_pos hB3] at he
        rcases List.mem_append.mp he with h1 | h1
        · simp only [List.mem_cons, List.not_mem_nil, or_false] at h1
          rcases h1 with rfl | rfl | rfl <;> exact annotated_of_asml rfl
        · by_cases hC3 : (decide (2 < s.text.length) && "n".toList.isSuffixOf p
              && (s.text.get? 1 == some 'n')
              && (s.text.get? 0 == s.text.get? 2) && isVowelC c0) = true
          · rw [if_pos hC3] at h1
            simp only [List.mem_cons, List.not_mem_nil, or_false] at h1
            rcases h1 with rfl | rfl | rfl <;> exact annotated_of_asml rfl
          · rw [if_neg hC3] at h1
            simp at h1
      · rw [if_neg hB3] at he
        simp at he

theorem pre_one_annotated {p : Str} {t : Stem} {l : List Stem} {e : Stem}
    (hp : p ≠ []) (h : pre_one p t = Except.ok l) (he : e ∈ l) : annotated e = true := by
  unfold pre_one at h
  split at h
  · split at h
    · exact Except.noConfusion h
    · split at h
      · exact Except.noConfusion h
      · injection h with h'
        rw [← h'] at he
        rcases List.mem_append.mp he with h1 | h1
        · rcases List.mem_append.mp h1 with h2 | h2
          · simp only [List.mem_singleton] at h2
            subst h2
            apply annotated_of_pre
            rw [pre_strip_pre]
            simp [truthyO, isEmpty_false_of_ne_nil hp]
          · rename_i hdr
            exact pre_dr_annotated hdr h2
        · exact pre_asml_annotated h1
  · injection h with h'
    rw [← h'] at he
    simp at he

theorem inf_one_annotated {x : Str} {t : Stem} {l : List Stem} {e : Stem}
    (hx : x ≠ []) (h : inf_one x t = Except.ok l) (he : e ∈ l) : annotated e = true := by
  unfold inf_one at h
  split at h
  · split at h
    · exact Except.noConfusion h
    · split at h
      · injection h with h'
        rw [← h'] at he
        simp only [List.mem_singleton] at he
        subst he
        exact annotated_of_inf (by simp [truthyO, isEmpty_false_of_ne_nil hx])
      · injection h with h'
        rw [← h'] at he
        simp at he
  · injection h with h'
    rw [← h'] at he
    simp at he

theorem vl_one_annotated {vw : Option (List Str)} {t e : Stem} (he : e ∈ vl_one vw t) :
    annotated e = true := by
  simp only [vl_one] at he
  rw [List.mem_flatMap] at he
  obtain ⟨v, _, he2⟩ := he
  rcases List.mem_append.mp he2 with h1 | h1
  · by_cases hl : decide (1 < t.text.length) = true
    · rw [if_pos hl] at h1
      by_cases hv : truthyStem (is_valid ({ t with text := t.text ++ [v] } : Stem) vw) = true
      · rw [if_pos hv] at h1
        simp only [List.mem_singleton] at h1
        subst h1
        exact annotated_of_vl rfl
      · rw [if_neg hv] at h1
        simp at h1
    · rw [if_neg hl] at h1
      simp at h1
  · by_cases hl : decide (2 < t.text.length) = true
    · rw [if_pos hl] at h1
      by_cases hv : truthyStem (is_valid
          ({ t with text := t.text.dropLast ++ [v] ++ t.text.drop (t.text.length - 1) } : Stem) vw) = true
      · rw [if_pos hv] at h1
        simp only [List.mem_singleton] at h1
        subst h1
        exact annotated_of_vl rfl
      · rw [if_neg hv] at h1
        simp at h1
    · rw [if_neg hl] at h1
      simp at h1

theorem stem_vowel_loss_annotated {vw : Option (List Str)} {ts : List Stem} {e : Stem}
    (he : e ∈ stem_vowel_loss ts vw) : annotated e = true := by
  unfold stem_vowel_loss at he
  rw [List.mem_flatMap] at he
  obtain ⟨t, _, he2⟩ := he
  exact vl_one_annotated he2

theorem suf_emit_annotated {stem : Stem} {f : Str} {vw : Option (List Str)}
    (hst : annotated stem = true) {e : Stem} (he : e ∈ suf_emit stem f vw) :
    annotated e = true := by
  simp only [suf_emit] at he
  rcases List.mem_append.mp he with h1 | h1
  · rcases List.mem_append.mp h1 with h2 | h2
    · rcases List.mem_append.mp h2 with h3 | h3
      · rcases List.mem_append.mp h3 with h4 | h4
        · simp only [List.mem_singleton] at h4
          subst h4
          exact hst
        · repeat' split at h4
          all_goals simp only [List.mem_singleton, List.not_mem_nil] at h4
          all_goals subst h4
          all_goals exact annotated_of_pc rfl
      · repeat' split at h3
        all_goals simp only [List.mem_singleton, List.not_mem_nil] at h3
        all_goals subst h3
        all_goals exact annotated_of_pc rfl
    · repeat' split at h2
      all_goals simp only [List.mem_singleton, List.not_mem_nil] at h2
      all_goals subst h2
      all_goals exact annotated_of_pc rfl
  · split at h1
    · rcases List.mem_append.mp h1 with h2 | h2
      · exact stem_vowel_loss_annotated h2
      · split at h2
        · simp only [List.mem_singleton] at h2
          subst h2
          exact annotated_of_mtts rfl
        · exact stem_vowel_loss_annotated h2
    · simp at h1

theorem suf_one_annotated {f : Str} {vw : Option (List Str)} {t e : Stem} (hf : f ≠ [])
    (he : e ∈ suf_one f vw t) : annotated e = true := by
  simp only [suf_one] at he
  split at he
  · split at he
    · split at he
      · simp at he
      · split at he
        · simp at he
        · exact suf_emit_annotated
            (annotated_of_contraction (by simp [truthyO, isEmpty_false_of_ne_nil hf])) he
    · exact suf_emit_annotated
        (annotated_of_suf (by simp [truthyO, isEmpty_false_of_ne_nil hf])) he
  · simp at he

theorem stem_dup_annotated {F : List Stem} {e : Stem} (he : e ∈ stem_dup F) :
    annotated e = true := by
  unfold stem_dup at he
  rw [List.mem_flatMap] at he
  obtain ⟨t, _, he2⟩ := he
  exact annotated_of_dup (stem_dup_one_dup he2)

theorem stem_rep_annotated {F : List Stem} {e : Stem} (he : e ∈ stem_rep F) :
    annotated e = true := by
  unfold stem_rep at he
  rw [List.mem_flatMap] at he
  obtain ⟨t, _, he2⟩ := he
  cases h : stem_rep_one t with
  | none =>
    rw [h] at he2
    simp at he2
  | some r =>
    rw [h] at he2
    simp at he2
    subst he2
    exact annotated_of_rep (stem_rep_one_rep h)

theorem stem_pre_annotated {pfxs : List Str} {F L : List Stem} {e : Stem}
    (hP : ∀ p ∈ pfxs, p ≠ []) (h : stem_pre pfxs F = Except.ok L) (he : e ∈ L) :
    annotated e = true := by
  unfold stem_pre at h
  obtain ⟨t, _, l1, h1, he1⟩ := exceptFlat_ok_mem h he
  obtain ⟨p, hp, l2, h2, he2⟩ := exceptFlat_ok_mem h1 he1
  exact pre_one_annotated (hP p hp) h2 he2

theorem stem_inf_annotated {ifxs : List Str} {F L : List Stem} {e : Stem}
    (hI : ∀ x ∈ ifxs, x ≠ []) (h : stem_inf ifxs F = Except.ok L) (he : e ∈ L) :
    annotated e = true := by
  unfold stem_inf at h
  obtain ⟨t, _, l1, h1, he1⟩ := exceptFlat_ok_mem h he
  obtain ⟨x, hx, l2, h2, he2⟩ := exceptFlat_ok_mem h1 he1
  exact inf_one_annotated (hI x hx) h2 he2

theorem stem_suf_annotated {sfxs : List Str} {vw : Option (List Str)} {F : List Stem}
    {e : Stem} (hS : ∀ f ∈ sfxs, f ≠ []) (he : e ∈ stem_suf sfxs vw F) :
    annotated e = true := by
  unfold stem_suf at he
  rw [List.mem_flatMap] at he
  obtain ⟨t, _, he2⟩ := he
  rw [List.mem_flatMap] at he2
  obtain ⟨f, hf, he3⟩ := he2
  exact suf_one_annotated (hS f hf) he3

/-- Every candidate the cascade produces either has the input's text or
carries at least one annotation: every rewrite records the rule that made
it, and annotations are never cleared by inheritance. -/
theorem pipeline_annotated {pfxs ifxs sfxs : List Str} {vw : Option (List Str)} {tok : Stem}
    {L : List Stem} (hP : ∀ p ∈ pfxs, p ≠ []) (hI : ∀ x ∈ ifxs, x ≠ [])
    (hS : ∀ f ∈ sfxs, f ≠ [])
    (h : pipelineStems pfxs ifxs sfxs vw tok = Except.ok L) :
    ∀ e ∈ L, e.text = tok.text ∨ annotated e = true := by
  simp only [pipelineStems] at h
  set F1 := updateStems [tok] (stem_dup [tok]) with hF1
  cases hpre : stem_pre pfxs F1 with
  | error u =>
    rw [hpre] at h
    exact absurd h (by simp)
  | ok d1 =>
    rw [hpre] at h
    simp only at h
    set F2 := updateStems F1 d1 with hF2
    set F3 := updateStems F2 (stem_rep F2) with hF3
    cases hinf : stem_inf ifxs F3 with
    | error u =>
      rw [hinf] at h
      exact absurd h (by simp)
    | ok d2 =>
      rw [hinf] at h
      simp only at h
      set F4 := updateStems F3 d2 with hF4
      set F5 := updateStems F4 (stem_rep F4) with hF5
      set F6 := updateStems F5 (stem_suf sfxs vw F5) with hF6
      injection h with h'
      intro e he
      rw [← h'] at he
      have i1 : ∀ e ∈ F1, e.text = tok.text ∨ annotated e = true := by
        intro e he
        rcases mem_updateStems he with h1 | h1
        · left
          simp only [List.mem_singleton] at h1
          rw [h1]
        · exact Or.inr (stem_dup_annotated h1)
      have i2 : ∀ e ∈ F2, e.text = tok.text ∨ annotated e = true := by
        intro e he
        rcases mem_updateStems he with h1 | h1
        · exact i1 e h1
        · exact Or.inr (stem_pre_annotated hP hpre h1)
      have i3 : ∀ e ∈ F3, e.text = tok.text ∨ annotated e = true := by
        intro e he
        rcases mem_updateStems he with h1 | h1
        · exact i2 e h1
        · exact Or.inr (stem_rep_annotated h1)
      have i4 : ∀ e ∈ F4, e.text = tok.text ∨ annotated e = true := by
        intro e he
        rcases mem_updateStems he with h1 | h1
        · exact i3 e h1
        · exact Or.inr (stem_inf_annotated hI hinf h1)
      have i5 : ∀ e ∈ F5, e.text = tok.text ∨ annotated e = true := by
        intro e he
        rcases mem_updateStems he with h1 | h1
        · exact i4 e h1
        · exact Or.inr (stem_rep_annotated h1)
      have i6 : ∀ e ∈ F6, e.text = tok.text ∨ annotated e = true := by
        intro e he
        rcases mem_updateStems he with h1 | h1
        · exact i5 e h1
        · exact Or.inr (stem_suf_annotated hS h1)
      rcases mem_updateStems he with h1 | h1
      · exact i6 e h1
      · exact Or.inr (stem_dup_annotated h1)

/-- C8: annotation consistency — any candidate returned by `get_stem` whose
text differs from the (normalized) input has at least one of its annotation
fields set, provided no affix is the empty string (as the loaded affix lists
guarantee). -/
theorem C8_annotation_consistency (pfxs ifxs sfxs : List Str) (vw : Option (List Str))
    (w : Str) (r : Stem)
    (hP : ∀ p ∈ pfxs, p ≠ []) (hI : ∀ x ∈ ifxs, x ≠ []) (hS : ∀ f ∈ sfxs, f ≠ [])
    (h : get_stem pfxs ifxs sfxs vw w = Except.ok r)
    (hne : r.text ≠ normalize w) :
    annotated r = true := by
  simp only [get_stem] at h
  cases hg : get_stem_candidates pfxs ifxs sfxs vw w with
  | error u =>
    rw [hg] at h
    exact absurd h (by simp)
  | ok cands =>
    rw [hg] at h
    simp only at h
    injection h with hsel
    rcases get_stem_select_mem (mkStem (normalize w)) cands with he | hm
    · have hrt : r = mkStem (normalize w) := by rw [← hsel, he]
      exact absurd (congrArg Stem.text hrt) hne
    · rw [hsel] at hm
      simp only [get_stem_candidates] at hg
      cases hp : pipelineStems pfxs ifxs sfxs vw (mkStem (normalize w)) with
      | error u =>
        rw [hp] at hg
        exact absurd hg (by simp)
      | ok stems =>
        rw [hp] at hg
        simp only at hg
        by_cases hc : (stems.filter (validAcceptable vw)).isEmpty = true
        · rw [if_pos hc] at hg
          injection hg with hg'
          rw [← hg'] at hm
          simp only [List.mem_singleton] at hm
          exact absurd (congrArg Stem.text hm) hne
        · rw [if_neg hc] at hg
          injection hg with hg'
          rw [← hg'] at hm
          have hmf : r ∈ stems.filter (validAcceptable vw) := (mem_sort_candidates r _).mp hm
          have hr : r ∈ stems := (List.mem_filter.mp hmf).1
          rcases pipeline_annotated hP hI hS hp r hr with h1 | h1
          · exact absurd h1 hne
          · exact h1

/-- Witness for C8: the stem `"alis"` of `"aalis"` carries its `rep`
annotation. -/
theorem C8_annotation_consistency_witness :
    annotated { mkStem "alis".toList with rep := some ['a'] } = true :=
  C8_annotation_consistency PREFIXES INFIXES SUFFIXES
    (some (["aalis", "alis"].map String.toList)) "aalis".toList
    { mkStem "alis".toList with rep := some ['a'] }
    (by decide) (by decide) (by decide) rfl (by decide)

theorem na_split {c : Char} (h : (isVowelC c || isConsC c) = false) :
    isVowelC c = false ∧ isConsC c = false :=
  Bool.or_eq_false_iff.mp h

theorem vowelAt_false {s : Str} (i : Nat)
    (hna : ∀ c ∈ s, (isVowelC c || isConsC c) = false) : vowelAt s i = false := by
  unfold vowelAt
  cases hg : s.get? i with
  | none => rfl
  | some c => exact (na_split (hna c (List.get?_mem hg))).1

theorem consAt_false {s : Str} (i : Nat)
    (hna : ∀ c ∈ s, (isVowelC c || isConsC c) = false) : consAt s i = false := by
  unfold consAt
  cases hg : s.get? i with
  | none => rfl
  | some c => exact (na_split (hna c (List.get?_mem hg))).2

theorem is_vowel_take_false {s : Str} {k : Nat} (hk : 0 < k) (hs : s ≠ [])
    (hna : ∀ c ∈ s, (isVowelC c || isConsC c) = false) : is_vowel (s.take k) = false := by
  cases s with
  | nil => exact absurd rfl hs
  | cons a as =>
    cases k with
    | zero => omega
    | succ m =>
      show is_vowel (a :: as.take m) = false
      unfold is_vowel
      rw [List.all_cons, (na_split (hna a (by simp))).1]
      rfl

theorem cVV_false {s : Str} (hna : ∀ c ∈ s, (isVowelC c || isConsC c) = false) :
    cVV s = false := by
  unfold cVV
  by_cases h : 2 < s.length
  · have hs : s ≠ [] := by
      intro hh
      rw [hh] at h
      simp at h
    rw [is_vowel_take_false (by omega) hs hna]
    simp
  · simp [h]

theorem cCVCV_false {s : Str} (hna : ∀ c ∈ s, (isVowelC c || isConsC c) = false) :
    cCVCV s = false := by
  unfold cCVCV
  rw [consAt_false 0 hna]
  simp

theorem cCVCCV_false {s : Str} (hna : ∀ c ∈ s, (isVowelC c || isConsC c) = false) :
    cCVCCV s = false := by
  unfold cCVCCV
  rw [vowelAt_false 1 hna]
  simp

theorem cCCCCV_false {s : Str} (hna : ∀ c ∈ s, (isVowelC c || isConsC c) = false) :
    cCCCCV s = false := by
  unfold cCCCCV
  rw [vowelAt_false 4 hna]
  simp

theorem cCCVCCV_false {s : Str} (hna : ∀ c ∈ s, (isVowelC c || isConsC c) = false) :
    cCCVCCV s = false := by
  unfold cCCVCCV
  rw [vowelAt_false 2 hna]
  simp

theorem cQ1_false {s : Str} (hna : ∀ c ∈ s, (isVowelC c || isConsC c) = false) :
    cQ1 s = false := by
  unfold cQ1
  rw [vowelAt_false 1 hna]
  simp

theorem cQ2_false {s : Str} (hna : ∀ c ∈ s, (isVowelC c || isConsC c) = false) :
    cQ2 s = false := by
  unfold cQ2
  rw [vowelAt_false 5 hna]
  simp

theorem cQ3_false {s : Str} (hna : ∀ c ∈ s, (isVowelC c || isConsC c) = false) :
    cQ3 s = false := by
  unfold cQ3
  rw [vowelAt_false 6 hna]
  simp

theorem cQ4_false {s : Str} (hna : ∀ c ∈ s, (isVowelC c || isConsC c) = false) :
    cQ4 s = false := by
  unfold cQ4
  rw [vowelAt_false 6 hna]
  simp

theorem cQ5_false {s : Str} (hna : ∀ c ∈ s, (isVowelC c || isConsC c) = false) :
    cQ5 s = false := by
  unfold cQ5
  rw [vowelAt_false 3 hna]
  simp

theorem stem_rep_one_none {t : Stem}
    (hna : ∀ c ∈ t.text, (isVowelC c || isConsC c) = false) : stem_rep_one t = none := by
  simp only [stem_rep_one, rep_chain1, rep_chain2]
  rw [cVV_false hna, cCVCV_false hna, cCVCCV_false hna, cCCCCV_false hna, cCCVCCV_false hna,
    cQ1_false hna, cQ2_false hna, cQ3_false hna, cQ4_false hna, cQ5_false hna]
  simp

theorem flatMap_nil {α : Type} (f : α → List Stem) (l : List α) (h : ∀ a ∈ l, f a = []) :
    l.flatMap f = [] := by
  induction l with
  | nil => rfl
  | cons a as ih =>
    rw [List.flatMap_cons, h a (by simp), ih (fun b hb => h b (List.mem_cons_of_mem _ hb))]
    rfl

theorem pre_one_nil {p : Str} {t : Stem}
    (hal : ∃ c ∈ p, (isVowelC c || isConsC c) = true)
    (hna : ∀ c ∈ t.text, (isVowelC c || isConsC c) = false) :
    pre_one p t = Except.ok [] := by
  unfold pre_one
  have hpf : p.isPrefixOf t.text = false := by
    rw [Bool.eq_false_iff]
    intro hh
    obtain ⟨c, hc, hca⟩ := hal
    have hf := hna c (isPrefixOf_subset p t.text hh c hc)
    rw [hf] at hca
    simp at hca
  rw [hpf]
  simp

theorem slice_beq_false {x s : Str} (a b : Nat)
    (hal : ∃ c ∈ x, (isVowelC c || isConsC c) = true)
    (hna : ∀ c ∈ s, (isVowelC c || isConsC c) = false) :
    (((s.drop a).take b) == x) = false := by
  rw [Bool.eq_false_iff]
  intro hh
  have hx : (s.drop a).take b = x := by simpa using hh
  obtain ⟨c, hc, hca⟩ := hal
  have hcs : c ∈ s := List.drop_subset a s (List.take_subset b _ (hx ▸ hc))
  have hf := hna c hcs
  rw [hf] at hca
  simp at hca

theorem inf_one_nil {x : Str} {t : Stem}
    (hal : ∃ c ∈ x, (isVowelC c || isConsC c) = true)
    (hna : ∀ c ∈ t.text, (isVowelC c || isConsC c) = false) :
    inf_one x t = Except.ok [] := by
  unfold inf_one
  by_cases hl : x.length + 1 < t.text.length
  · rw [if_pos (by simpa using hl)]
    have hs1 : inf_shape1 x t.text = Except.ok false := by
      unfold inf_shape1
      have hpf : x.isPrefixOf t.text = false := by
        rw [Bool.eq_false_iff]
        intro hh
        obtain ⟨c, hc, hca⟩ := hal
        have hf := hna c (isPrefixOf_subset x t.text hh c hc)
        rw [hf] at hca
        simp at hca
      rw [hpf]
      simp
    have hrest : inf_rest x t = none := by
      simp only [inf_rest]
      rw [slice_beq_false 1 2 hal hna, slice_beq_false 2 2 hal hna, slice_beq_false 3 2 hal hna]
      simp
    rw [hs1]
    simp only []
    rw [hrest]
    simp
  · rw [if_neg (by simpa using hl)]

theorem suf_one_nil {f : Str} {vw : Option (List Str)} {t : Stem}
    (hal : ∃ c ∈ f, (isVowelC c || isConsC c) = true)
    (hna : ∀ c ∈ t.text, (isVowelC c || isConsC c) = false) :
    suf_one f vw t = [] := by
  simp only [suf_one]
  have hsf : f.isSuffixOf t.text = false := by
    rw [Bool.eq_false_iff]
    intro hh
    obtain ⟨c, hc, hca⟩ := hal
    have hf := hna c (isSuffixOf_subset f t.text hh c hc)
    rw [hf] at hca
    simp at hca
  rw [hsf]
  simp

theorem dup_two_text {t e : Stem} {p1 p2 : Str} (he : e ∈ dup_two t p1 p2) :
    e.text = p1 ∨ e.text = p2 := by
  unfold dup_two at he
  repeat' split at he
  all_goals simp only [List.mem_singleton, List.not_mem_nil] at he
  all_goals subst he
  all_goals simp

theorem stem_dup_one_text_mem {t e : Stem} (he : e ∈ stem_dup_one t) :
    e.text ∈ splitDash t.text := by
  simp only [stem_dup_one] at he
  split at he
  · split at he
    · split at he
      · rename_i heq _
        rcases dup_two_text he with h | h <;> rw [h, heq] <;> simp
      · simp at he
    · simp at he
  · simp at he

theorem splitDash_no_dash : ∀ (s : Str) (p : Str), p ∈ splitDash s → '-' ∉ p := by
  intro s
  induction s with
  | nil =>
    intro p hp
    simp [splitDash] at hp
    subst hp
    simp
  | cons a as ih =>
    intro p hp
    unfold splitDash at hp
    by_cases ha : a = '-'
    · rw [if_pos ha] at hp
      rcases List.mem_cons.mp hp with rfl | hp'
      · simp
      · exact ih p hp'
    · rw [if_neg ha] at hp
      cases hs : splitDash as with
      | nil =>
        rw [hs] at hp
        simp at hp
        subst hp
        simp
        exact fun hh => ha hh.symm
      | cons h0 r =>
        rw [hs] at hp
        rcases List.mem_cons.mp hp with rfl | hp'
        · intro hc
          rcases List.mem_cons.mp hc with hc' | hc'
          · exact ha hc'.symm
          · exact ih h0 (by rw [hs]; simp) hc'
        · exact ih p (by rw [hs]; exact List.mem_cons_of_mem _ hp')

theorem stem_dup_one_no_dash {t : Stem} (h : '-' ∉ t.text) : stem_dup_one t = [] := by
  simp only [stem_dup_one]
  have hc : t.text.contains '-' = false := by simpa using h
  rw [hc]
  simp

theorem updateStems_nil (F : List Stem) : updateStems F [] = F := rfl

theorem mem_addStem_of_mem {F : List Stem} (a : Stem) {e : Stem} (he : e ∈ F) :
    e ∈ addStem F a := by
  unfold addStem
  split
  · exact he
  · exact List.mem_append_left _ he

theorem self_mem_addStem {F : List Stem} {a : Stem}
    (h : F.any (fun c => c.text == a.text) = false) : a ∈ addStem F a := by
  unfold addStem
  rw [h]
  simp

theorem subset_updateStems : ∀ (ns F : List Stem) (e : Stem), e ∈ F → e ∈ updateStems F ns := by
  intro ns
  induction ns with
  | nil => exact fun F e he => he
  | cons a as ih => exact fun F e he => ih (addStem F a) e (mem_addStem_of_mem a he)

theorem updateStems_text_complete : ∀ (ns F : List Stem) (e : Stem), e ∈ ns →
    ∃ d ∈ updateStems F ns, d.text = e.text := by
  intro ns
  induction ns with
  | nil =>
    intro F e he
    simp at he
  | cons a as ih =>
    intro F e he
    rcases List.mem_cons.mp he with rfl | he'
    · by_cases hc : F.any (fun c => c.text == e.text) = true
      · obtain ⟨d, hd, hdt⟩ := List.any_eq_true.mp hc
        exact ⟨d, subset_updateStems as (addStem F e) d (mem_addStem_of_mem e hd),
          by simpa using hdt⟩
      · exact ⟨e, subset_updateStems as (addStem F e) e
          (self_mem_addStem (Bool.eq_false_iff.mpr hc)), rfl⟩
    · exact ih (addStem F a) e he'

theorem updateStems_absorb {F ns : List Stem}
    (h : ∀ e ∈ ns, ∃ d ∈ F, d.text = e.text) : updateStems F ns = F := by
  induction ns with
  | nil => rfl
  | cons a as ih =>
    have ha : addStem F a = F := by
      unfold addStem
      rw [if_pos]
      obtain ⟨d, hd, hdt⟩ := h a (by simp)
      exact List.any_eq_true.mpr ⟨d, hd, by simpa using hdt⟩
    show updateStems (addStem F a) as = F
    rw [ha]
    exact ih (fun e he => h e (List.mem_cons_of_mem _ he))

theorem is_acceptable_false_of_na {s : Str}
    (hna : ∀ c ∈ s, (isVowelC c || isConsC c) = false) : is_acceptable s = false := by
  cases s with
  | nil => rfl
  | cons c cs =>
    have h := na_split (hna c (by simp))
    simp [is_acceptable, h.1, h.2]

/-- C7 (amended): a token whose normalized form contains no character of the
Tagalog alphabet is its own stem — no rule matches it (given that every affix
contains at least one alphabetic character, as the real affix lists do), every
full-reduplication by-product fails the acceptability filter, and `get_stem`
returns the normalized token itself. -/
theorem C7_no_alpha_identity (pfxs ifxs sfxs : List Str) (vw : Option (List Str)) (w : Str)
    (hP : ∀ p ∈ pfxs, ∃ c ∈ p, (isVowelC c || isConsC c) = true)
    (hI : ∀ x ∈ ifxs, ∃ c ∈ x, (isVowelC c || isConsC c) = true)
    (hS : ∀ f ∈ sfxs, ∃ c ∈ f, (isVowelC c || isConsC c) = true)
    (hna : ∀ c ∈ normalize w, (isVowelC c || isConsC c) = false) :
    get_stem pfxs ifxs sfxs vw w = Except.ok (mkStem (normalize w)) := by
  have h1na : ∀ e ∈ updateStems [mkStem (normalize w)] (stem_dup [mkStem (normalize w)]),
      ∀ c ∈ e.text, (isVowelC c || isConsC c) = false := by
    intro e he
    rcases mem_updateStems he with h1 | h1
    · simp only [List.mem_singleton] at h1
      subst h1
      exact hna
    · unfold stem_dup at h1
      rw [List.mem_flatMap] at h1
      obtain ⟨t, ht, h2⟩ := h1
      simp only [List.mem_singleton] at ht
      subst ht
      intro c hc
      exact hna c (splitDash_subset _ _ (stem_dup_one_text_mem h2) c hc)
  have hpre : stem_pre pfxs (updateStems [mkStem (normalize w)] (stem_dup [mkStem (normalize w)]))
      = Except.ok [] :=
    exceptFlat_all_nil (fun t ht =>
      exceptFlat_all_nil (fun p hp => pre_one_nil (hP p hp) (h1na t ht)))
  have hrep1 : stem_rep (updateStems [mkStem (normalize w)] (stem_dup [mkStem (normalize w)]))
      = [] := by
    apply flatMap_nil
    intro t ht
    rw [stem_rep_one_none (h1na t ht)]
    rfl
  have hinf : stem_inf ifxs (updateStems [mkStem (normalize w)] (stem_dup [mkStem (normalize w)]))
      = Except.ok [] :=
    exceptFlat_all_nil (fun t ht =>
      exceptFlat_all_nil (fun x hx => inf_one_nil (hI x hx) (h1na t ht)))
  have hsuf : stem_suf sfxs vw (updateStems [mkStem (normalize w)] (stem_dup [mkStem (normalize w)]))
      = [] :=
    flatMap_nil _ _ (fun t ht =>
      flatMap_nil _ _ (fun f hf => suf_one_nil (hS f hf) (h1na t ht)))
  have hdup2 : updateStems (updateStems [mkStem (normalize w)] (stem_dup [mkStem (normalize w)]))
      (stem_dup (updateStems [mkStem (normalize w)] (stem_dup [mkStem (normalize w)])))
      = updateStems [mkStem (normalize w)] (stem_dup [mkStem (normalize w)]) := by
    apply updateStems_absorb
    intro e he
    unfold stem_dup at he
    rw [List.mem_flatMap] at he
    obtain ⟨t, ht, he2⟩ := he
    rcases mem_updateStems ht with h1 | h1
    · simp only [List.mem_singleton] at h1
      subst h1
      have hmem : e ∈ stem_dup [mkStem (normalize w)] := by
        unfold stem_dup
        rw [List.mem_flatMap]
        exact ⟨mkStem (normalize w), by simp, he2⟩
      exact updateStems_text_complete _ _ _ hmem
    · have hnd : '-' ∉ t.text := by
        rw [List.mem_flatMap] at h1
        obtain ⟨t0, _, h3⟩ := h1
        exact splitDash_no_dash _ _ (stem_dup_one_text_mem h3)
      rw [stem_dup_one_no_dash hnd] at he2
      simp at he2
  have hpipe : pipelineStems pfxs ifxs sfxs vw (mkStem (normalize w))
      = Except.ok (updateStems [mkStem (normalize w)] (stem_dup [mkStem (normalize w)])) := by
    simp only [pipelineStems, hpre, updateStems_nil, hrep1, hinf, hsuf, hdup2]
  have hflt : (updateStems [mkStem (normalize w)] (stem_dup [mkStem (normalize w)])).filter
      (validAcceptable vw) = [] := by
    rw [List.filter_eq_nil_iff]
    intro e he
    simp [validAcceptable, is_acceptable_false_of_na (h1na e he)]
  have hcand : get_stem_candidates pfxs ifxs sfxs vw w = Except.ok [mkStem (normalize w)] := by
    simp only [get_stem_candidates, hpipe, hflt]
    simp
  simp only [get_stem, hcand]
  have hsel : get_stem_select (mkStem (normalize w)) [mkStem (normalize w)]
      = mkStem (normalize w) := by
    simp [get_stem_select, survivorsOf]
  simp [hsel]

/-- Witness for C7 (amended): `"123-123"` contains no alphabetic character and
stems to itself. -/
theorem C7_no_alpha_identity_witness :
    get_stem PREFIXES INFIXES SUFFIXES none "123-123".toList
      = Except.ok (mkStem (normalize "123-123".toList)) :=
  C7_no_alpha_identity PREFIXES INFIXES SUFFIXES none "123-123".toList
    (by decide) (by decide) (by decide) (by decide)

theorem updateStems_nodup : ∀ (ns F : List Stem), (F.map Stem.text).Nodup →
    ((updateStems F ns).map Stem.text).Nodup := by
  intro ns
  induction ns with
  | nil => exact fun F h => h
  | cons a as ih =>
    intro F h
    apply ih
    unfold addStem
    split
    · exact h
    · rename_i hc
      have hnin : a.text ∉ F.map Stem.text := by
        intro hin
        obtain ⟨d, hd, hdt⟩ := List.mem_map.mp hin
        exact hc (List.any_eq_true.mpr ⟨d, hd, by simpa using hdt⟩)
      rw [List.map_append]
      simp [List.nodup_append, h, hnin]

theorem pipeline_nodup {pfxs ifxs sfxs : List Str} {vw : Option (List Str)} {tok : Stem}
    {L : List Stem} (h : pipelineStems pfxs ifxs sfxs vw tok = Except.ok L) :
    (L.map Stem.text).Nodup := by
  simp only [pipelineStems] at h
  cases hpre : stem_pre pfxs (updateStems [tok] (stem_dup [tok])) with
  | error u =>
    rw [hpre] at h
    exact absurd h (by simp)
  | ok d1 =>
    rw [hpre] at h
    simp only at h
    cases hinf : stem_inf ifxs
        (updateStems (updateStems (updateStems [tok] (stem_dup [tok])) d1)
          (stem_rep (updateStems (updateStems [tok] (stem_dup [tok])) d1))) with
    | error u =>
      rw [hinf] at h
      exact absurd h (by simp)
    | ok d2 =>
      rw [hinf] at h
      simp only at h
      injection h with h'
      rw [← h']
      apply updateStems_nodup
      apply updateStems_nodup
      apply updateStems_nodup
      apply updateStems_nodup
      apply updateStems_nodup
      apply updateStems_nodup
      apply updateStems_nodup
      simp

theorem get_stem_candidates_nodup {pfxs ifxs sfxs : List Str} {vw : Option (List Str)}
    {w : Str} {l : List Stem}
    (h : get_stem_candidates pfxs ifxs sfxs vw w = Except.ok l) :
    (l.map Stem.text).Nodup := by
  simp only [get_stem_candidates] at h
  cases hp : pipelineStems pfxs ifxs sfxs vw (mkStem (normalize w)) with
  | error u =>
    rw [hp] at h
    exact absurd h (by simp)
  | ok stems =>
    rw [hp] at h
    simp only at h
    by_cases hc : (stems.filter (validAcceptable vw)).isEmpty = true
    · rw [if_pos hc] at h
      injection h with h'
      rw [← h']
      simp
    · rw [if_neg hc] at h
      injection h with h'
      rw [← h']
      have hperm := (sort_candidates_perm (stems.filter (validAcceptable vw))).map Stem.text
      rw [List.Perm.nodup_iff hperm]
      exact nodup_text_filter _ _ (pipeline_nodup hp)

/-- C1: for every input word and lexicon on which `get_stem` returns, with a
survivor left after the original token is filtered from the candidate list,
the returned stem lies in the first non-empty preference class
(no-transformation ∩ no-contraction, then no-contraction, then
no-transformation, then all survivors) and has maximal score — the summed
string lengths of `pre`, `inf`, `suf`, `rep` and `dup` — within that class. -/
theorem C1_selection (pfxs ifxs sfxs : List Str) (vw : Option (List Str)) (w : Str)
    (cands : List Stem) (r : Stem)
    (hc : get_stem_candidates pfxs ifxs sfxs vw w = Except.ok cands)
    (hr : get_stem pfxs ifxs sfxs vw w = Except.ok r)
    (hs : survivorsOf (mkStem (normalize w)) cands ≠ []) :
    r ∈ firstClass (mkStem (normalize w)) cands
    ∧ ∀ c ∈ firstClass (mkStem (normalize w)) cands, score c ≤ score r := by
  have hrsel : get_stem_select (mkStem (normalize w)) cands = r := by
    simp only [get_stem] at hr
    rw [hc] at hr
    simp only at hr
    injection hr
  rw [← hrsel]
  exact get_stem_select_spec (mkStem (normalize w)) cands (get_stem_candidates_nodup hc) hs

/-- Witness for C1: the concrete run on `"aalis"` with lexicon
`["aalis", "alis"]`. -/
theorem C1_selection_witness :
    ({ mkStem "alis".toList with rep := some ['a'] } : Stem)
      ∈ firstClass (mkStem (normalize "aalis".toList))
        [{ mkStem "alis".toList with rep := some ['a'] }, mkStem "aalis".toList]
    ∧ ∀ c ∈ firstClass (mkStem (normalize "aalis".toList))
        [{ mkStem "alis".toList with rep := some ['a'] }, mkStem "aalis".toList],
        score c ≤ score ({ mkStem "alis".toList with rep := some ['a'] } : Stem) :=
  C1_selection PREFIXES INFIXES SUFFIXES (some (["aalis", "alis"].map String.toList))
    "aalis".toList
    [{ mkStem "alis".toList with rep := some ['a'] }, mkStem "aalis".toList]
    { mkStem "alis".toList with rep := some ['a'] }
    rfl rfl (by decide)

/-- Witness for C3 (amended): `"ating"` with suffix `g` emits `"atin"` tagged
`contraction = "g"`. -/
theorem C3_g_contraction_witness :
    (("atin".toList : Str).getLast? = some 'n' →
      ({ mkStem "ating".toList with text := "atin".toList, contraction := some ['g'] } : Stem)
        ∈ suf_one ['g'] none (mkStem "ating".toList))
    ∧ (("atin".toList : Str).getLast? ≠ some 'n' →
      suf_one ['g'] none (mkStem "ating".toList) = []) :=
  C3_g_contraction none (mkStem "ating".toList) "atin".toList (by decide) (by decide)

/-- Witness for C5 (amended) at the override-exhibiting input. -/
theorem C5_rep_first_match_witness :
    stem_rep_one (mkStem "bbbbbba".toList) = rep_with_override (mkStem "bbbbbba".toList)
    ∧ (stem_rep [mkStem "bbbbbba".toList]).length ≤ 1 :=
  C5_rep_first_match (mkStem "bbbbbba".toList)

/-- Witness for C9 at a concrete token. -/
theorem C9_is_valid_empty_lexicon_witness :
    is_valid (mkStem "aba".toList) (some []) = some (mkStem "aba".toList)
    ∧ is_valid (mkStem "aba".toList) none = some (mkStem "aba".toList) :=
  C9_is_valid_empty_lexicon (mkStem "aba".toList)

end Tgl
